import Mathlib

/-!
Verification of the Airtable reconciliation core of `heyen_v2_airtable_replace.py`.

The Python program scrapes real-estate listings and synchronises them into an
Airtable table.  The stateful core — building the desired/existing maps keyed by
`unique_key`, computing create/update/delete operations, and applying them —
is embedded below as executable Lean definitions.  Python dictionaries are
modelled as association lists (insertion order preserved, updates in place),
Python strings as `String`, and Python floats as `Rat` (the prices handled by
the program are decimal literals, which `Rat` models exactly).
-/

namespace HeyenScraper

/-- A field value of a record: the program only stores strings and numbers
(`make_record` puts strings everywhere except `Preis`, which is a parsed
number). -/
inductive Value where
  | str (s : String)
  | num (q : Rat)
deriving DecidableEq

/-- A record / an Airtable `fields` object: a Python dict from field name to
value, modelled as an association list in insertion order. -/
abbrev Record := List (String × Value)

/-- Association-list lookup, modelling Python `d.get(k)` / `d[k]` on a dict. -/
def alGet {κ α : Type} [DecidableEq κ] : List (κ × α) → κ → Option α
  | [], _ => none
  | (k', v) :: rest, k => if k = k' then some v else alGet rest k

/-- Association-list insert-or-replace, modelling Python `d[k] = v`: an
existing key keeps its position, a new key is appended at the end. -/
def dictInsert {κ α : Type} [DecidableEq κ] (k : κ) (v : α) :
    List (κ × α) → List (κ × α)
  | [] => [(k, v)]
  | (k', v') :: rest =>
      if k = k' then (k, v) :: rest else (k', v') :: dictInsert k v rest

/-- Python `s.strip()`: drop whitespace from both ends. -/
def pyStrip (s : String) : String :=
  ⟨((s.data.dropWhile Char.isWhitespace).reverse.dropWhile Char.isWhitespace).reverse⟩

/-- Models `(fields.get(name) or "")` for a field that holds a string when
present (absent fields and falsy values give `""`; the program only applies
this to the string fields `Objektnummer` and `Webseite` / `Beschreibung`). -/
def pyGetStrOr (fields : Record) (name : String) : String :=
  match alGet fields name with
  | some (Value.str s) => s
  | _ => ""

/-- `json.dumps(fields, sort_keys=True)`: the canonical, order-independent form
of a record, modelled as the field list sorted by field name. -/
def canonicalize (fields : Record) : Record :=
  List.insertionSort (fun p q => p.1 ≤ q.1) fields

/-- The identity key of `unique_key`: `"obj:" + s`, `"url:" + s`, or
`"hash:" + hash(json.dumps(fields, sort_keys=True))`.  The three string
prefixes keep the branches disjoint, so the key is modelled as an inductive;
the hash branch keeps the canonical serialisation itself (hash collisions of
Python's `hash` are abstracted away). -/
inductive Key where
  | obj (s : String)
  | url (s : String)
  | hash (canonical : Record)
deriving DecidableEq

/-- `unique_key(fields)` (lines 957–965): object number first, then URL, then
a hash of the canonical serialisation. -/
def unique_key (fields : Record) : Key :=
  let obj := pyStrip (pyGetStrOr fields "Objektnummer")
  if obj ≠ "" then Key.obj obj
  else
    let url := pyStrip (pyGetStrOr fields "Webseite")
    if url ≠ "" then Key.url url
    else Key.hash (canonicalize fields)

/-- Fields accepted even when missing from the whitelist (line 223). -/
def ALWAYS_ALLOWED : List String := ["Kurzbeschreibung"]

/-- `sanitize_record_for_airtable(record, allowed_fields)` (lines 215–243):
empty whitelist accepts everything, otherwise keep the fields in
`allowed_fields ∪ ALWAYS_ALLOWED`. -/
def sanitize_record_for_airtable (record : Record) (allowed_fields : List String) :
    Record :=
  if allowed_fields = [] then record
  else record.filter (fun p => decide (p.1 ∈ allowed_fields ∨ p.1 ∈ ALWAYS_ALLOWED))

/-- The field-level diff of line 1047:
`{fld: val for fld, val in fields.items() if old.get(fld) != val}`. -/
def diffFields (old fields : Record) : Record :=
  fields.filter (fun p => decide (alGet old p.1 ≠ some p.2))

/-- One entry of `to_update`: `{"id": rec_id, "fields": diff}`. -/
structure UpdateOp where
  id : String
  fields : Record
deriving DecidableEq

/-- The `to_create` / `to_update` / `keep` accumulators of lines 1043–1052. -/
structure SyncOps where
  toCreate : List Record
  toUpdate : List UpdateOp
  keep : List Key
deriving DecidableEq

/-- The loop of lines 1044–1052 over `desired.items()`. -/
def reconcileCore : List (Key × Record) → List (Key × (String × Record)) → SyncOps
  | [], _ => ⟨[], [], []⟩
  | (k, fields) :: rest, existing =>
      let acc := reconcileCore rest existing
      match alGet existing k with
      | some (recId, old) =>
          let diff := diffFields old fields
          ⟨acc.toCreate,
           if diff = [] then acc.toUpdate else ⟨recId, diff⟩ :: acc.toUpdate,
           k :: acc.keep⟩
      | none => ⟨fields :: acc.toCreate, acc.toUpdate, acc.keep⟩

/-- Lines 1043–1054: the operation lists plus the delete list
`[rec_id for k, (rec_id, _) in existing.items() if k not in keep]`. -/
def reconcile (desired : List (Key × Record))
    (existing : List (Key × (String × Record))) : SyncOps × List String :=
  let ops := reconcileCore desired existing
  (ops, (existing.filter (fun p => decide (p.1 ∉ ops.keep))).map (fun p => p.2.1))

/-- `len(r.get("Beschreibung", ""))`. -/
def descLen (r : Record) : Nat := (pyGetStrOr r "Beschreibung").length

/-- Lines 1031–1041: build the `desired` dict, sanitising each record and, on a
key collision, keeping the record whose raw description is longer than the
description stored on the already-retained (sanitised) record. -/
def buildDesired (allowed : List String) (rows : List Record) :
    List (Key × Record) :=
  rows.foldl
    (fun m r =>
      let k := unique_key r
      match alGet m k with
      | some cur =>
          if descLen r > descLen cur then
            dictInsert k (sanitize_record_for_airtable r allowed) m
          else m
      | none => dictInsert k (sanitize_record_for_airtable r allowed) m)
    []

/-- Lines 1026–1029: build the `existing` dict from the listed remote rows,
keyed by `unique_key` of each row's own fields (later rows overwrite earlier
ones on a key collision, as for a Python dict). -/
def buildExisting (remote : List (String × Record)) :
    List (Key × (String × Record)) :=
  remote.foldl (fun m row => dictInsert (unique_key row.2) row m) []

/-! ### Applying the computed operations to the remote table

Creates append rows (with fresh remote ids), updates PATCH only the named
fields of the addressed row, deletes remove rows by id. -/

/-- Set one field of a row, as an Airtable PATCH does per field. -/
def setField (r : Record) (fld : String) (v : Value) : Record :=
  dictInsert fld v r

/-- Apply an update's `fields` to a row: named fields are overwritten, all
other fields are kept. -/
def applyPatch (old diff : Record) : Record :=
  diff.foldl (fun acc p => setField acc p.1 p.2) old

/-- Apply one update operation to the table: only the row with the matching
remote id changes. -/
def applyOneUpdate (u : UpdateOp) (rows : List (String × Record)) :
    List (String × Record) :=
  rows.map (fun row => if row.1 = u.id then (row.1, applyPatch row.2 u.fields) else row)

def applyUpdates (ups : List UpdateOp) (rows : List (String × Record)) :
    List (String × Record) :=
  ups.foldl (fun acc u => applyOneUpdate u acc) rows

/-- Apply a whole reconciliation result: create (new rows get the fresh ids of
`newIds`), then update, then delete — the order of lines 1058–1066. -/
def applyOps (remote : List (String × Record)) (newIds : List String)
    (creates : List Record) (ups : List UpdateOp) (dels : List String) :
    List (String × Record) :=
  (applyUpdates ups (remote ++ newIds.zip creates)).filter
    (fun row => decide (row.1 ∉ dels))

/-! ### Price extraction and parsing (lines 477–556) -/

/-- Value of a decimal digit character. -/
def digitVal (c : Char) : Nat := c.toNat - 48

/-- Numeric value of a most-significant-first digit string. -/
def digitsVal (cs : List Char) : Nat := cs.foldl (fun a c => 10 * a + digitVal c) 0

/-- Split a character list at every `'.'`, as Python `str.split(".")` does. -/
def splitOnDot : List Char → List (List Char)
  | [] => [[]]
  | c :: rest =>
      if c = '.' then [] :: splitOnDot rest
      else
        match splitOnDot rest with
        | [] => [[c]]
        | p :: ps => (c :: p) :: ps

/-- Python `float(s)` on the strings reachable in this program: an optional
integer part, an optional single `'.'`, and an optional fraction part, at
least one digit overall (`float` also strips surrounding whitespace).  Signs,
exponents, underscores and `inf`/`nan` are not modelled — the cleaned price
strings of this program can only contain digits and at most one dot. -/
def pyFloatOfString (s : String) : Option Rat :=
  match splitOnDot (pyStrip s).data with
  | [a] =>
      if a ≠ [] ∧ a.all Char.isDigit then some ((digitsVal a : Nat) : Rat) else none
  | [a, b] =>
      if (a ≠ [] ∨ b ≠ []) ∧ a.all Char.isDigit ∧ b.all Char.isDigit then
        some ((digitsVal a : Rat) + (digitsVal b : Rat) / ((10 : Rat) ^ b.length))
      else none
  | _ => none

/-- Python `s.replace(c, "")` for a single character: remove every occurrence. -/
def removeChar (c : Char) (s : String) : String :=
  ⟨s.data.filter (fun a => a ≠ c)⟩

/-- Python `s.replace(",", ".")`: turn every comma into a dot. -/
def commaToDot (s : String) : String :=
  ⟨s.data.map (fun a => if a = ',' then '.' else a)⟩

/-- `parse_price_to_number(preis_str)` (lines 535–556): `None` on the empty
string, otherwise strip `€` and whitespace, drop thousands dots, turn the
decimal comma into a dot, and parse as a float. -/
def parse_price_to_number (preis_str : String) : Option Rat :=
  if preis_str = "" then none
  else pyFloatOfString (commaToDot (removeChar '.' (pyStrip (removeChar '€' preis_str))))

/-- The decimal digit character of `d % 10`. -/
def digitChar : Nat → Char
  | 0 => '0' | 1 => '1' | 2 => '2' | 3 => '3' | 4 => '4'
  | 5 => '5' | 6 => '6' | 7 => '7' | 8 => '8' | _ => '9'

/-- Least-significant-first decimal digits of `n` (empty for `0`); the fuel
argument makes the recursion structural. -/
def natDigitsRevAux : Nat → Nat → List Char
  | _, 0 => []
  | 0, _ + 1 => []
  | n + 1, fuel + 1 => digitChar ((n + 1) % 10) :: natDigitsRevAux ((n + 1) / 10) fuel

def natDigitsRev (n : Nat) : List Char := natDigitsRevAux n n

/-- Decimal digit string of a natural number, as Python `str(n)`. -/
def natDigitsStr (n : Nat) : List Char :=
  if n = 0 then ['0'] else (natDigitsRev n).reverse

/-- Insert a `'.'` after every three characters of a least-significant-first
digit list: the grouping of Python's `f"{n:,}"` (with `.` for `,`). -/
def groupRev : List Char → List Char
  | [] => []
  | [a] => [a]
  | [a, b] => [a, b]
  | [a, b, c] => [a, b, c]
  | a :: b :: c :: d :: rest => a :: b :: c :: '.' :: groupRev (d :: rest)

/-- `f"{n:,}".replace(",", ".")`: decimal rendering with `.` as thousands
separator. -/
def formatThousands (n : Nat) : String :=
  ⟨(groupRev (natDigitsStr n).reverse).reverse⟩

/-- `f"€{int(x):,}".replace(",", ".")` applied to a nonnegative integer. -/
def formatEuro (n : Nat) : String := ⟨'€' :: (formatThousands n).data⟩

/-- The body of the pattern loop of `extract_price` (lines 504–530) for one
regex capture: drop thousands dots, turn a decimal comma (if any) into a dot,
parse as float, and accept only prices above 100. -/
def priceFromCapture (cap : String) : Option String :=
  let c1 := removeChar '.' cap
  let c2 := if c1.data.contains ',' then commaToDot c1 else c1
  match pyFloatOfString c2 with
  | none => none
  | some x => if 100 < x then some (formatEuro x.floor.toNat) else none

/-- `extract_price(page_text)` (lines 477–533), parametrised by the list of
first-match captures of its regex patterns, in pattern order (the regex engine
itself is the only part not embedded; every capture the patterns can produce
is some digits/dots string with at most one trailing `,digits` group, and the
theorems below hold for arbitrary capture strings).  Returns `""` when no
capture yields a plausible price. -/
def extract_price : List String → String
  | [] => ""
  | cap :: rest =>
      match priceFromCapture cap with
      | some s => s
      | none => extract_price rest

/-! ### `make_record` (lines 922–955) -/

/-- The output of `parse_detail` (lines 909–920): a dict of ten string
fields. -/
structure RawRow where
  titel : String
  url : String
  beschreibung : String
  kurzbeschreibung : String
  objektnummer : String
  kategorie : String
  objekttyp : String
  preis : String
  ort : String
  bild : String
deriving DecidableEq

/-- `make_record(row)`: the Airtable record; `Kurzbeschreibung` only when
non-empty, `Preis` only when `parse_price_to_number` succeeded. -/
def make_record (row : RawRow) : Record :=
  let base : Record :=
    [("Titel", Value.str row.titel),
     ("Kategorie", Value.str row.kategorie),
     ("Webseite", Value.str row.url),
     ("Objektnummer", Value.str row.objektnummer),
     ("Beschreibung", Value.str row.beschreibung),
     ("Bild", Value.str row.bild),
     ("Standort", Value.str row.ort)]
  let base :=
    if row.kurzbeschreibung ≠ "" then
      base ++ [("Kurzbeschreibung", Value.str row.kurzbeschreibung)]
    else base
  match parse_price_to_number row.preis with
  | some q => base ++ [("Preis", Value.num q)]
  | none => base

/-! ### The run-level control flow (lines 971–1070) -/

/-- The three Airtable credentials read from the environment. -/
structure Config where
  airtableToken : String
  airtableBase : String
  airtableTableId : String

/-- `airtable_table_segment()` (lines 115–119). -/
def airtable_table_segment (c : Config) : String :=
  if c.airtableBase = "" ∨ c.airtableTableId = "" then ""
  else c.airtableBase ++ "/" ++ c.airtableTableId

/-- The synchronisation guard of lines 256 and 1020:
`AIRTABLE_TOKEN and AIRTABLE_BASE and airtable_table_segment()`. -/
def syncConfigured (c : Config) : Prop :=
  c.airtableToken ≠ "" ∧ c.airtableBase ≠ "" ∧ airtable_table_segment c ≠ ""

instance (c : Config) : Decidable (syncConfigured c) := by
  unfold syncConfigured; infer_instance

/-- `airtable_existing_fields()` (lines 155–164): the empty set when the table
has no rows, otherwise the key set of the first listed row. -/
def airtable_existing_fields (allFields : List Record) : List String :=
  match allFields with
  | [] => []
  | f :: _ => f.map Prod.fst

/-- The observable side effects of a run, in order. -/
inductive Effect where
  | csvExport (rows : List Record)
  | listRemote
  | batchCreate (records : List Record)
  | batchUpdate (ups : List UpdateOp)
  | batchDelete (ids : List String)
  | skipNotice
deriving DecidableEq

/-- The effect trace of `run()` (lines 971–1070), parametrised by the scraped
records (`all_rows`, extraction is an external collaborator) and the remote
table contents: the start-up cache load lists the table only when the
credentials are configured; the CSV export happens whenever records exist;
the synchronisation branch lists the table twice (field inference + listing),
then creates/updates/deletes only the non-empty operation lists; without
credentials it is replaced by a skip notice. -/
def runModel (c : Config) (all_rows : List Record)
    (remote : List (String × Record)) : List Effect :=
  (if syncConfigured c then [Effect.listRemote] else []) ++
  if all_rows = [] then []
  else
    Effect.csvExport all_rows ::
      (if syncConfigured c then
        let allowed := airtable_existing_fields (remote.map Prod.snd)
        let res := reconcile (buildDesired allowed all_rows) (buildExisting remote)
        [Effect.listRemote, Effect.listRemote] ++
          (if res.1.toCreate ≠ [] then [Effect.batchCreate res.1.toCreate] else []) ++
          (if res.1.toUpdate ≠ [] then [Effect.batchUpdate res.1.toUpdate] else []) ++
          (if res.2 ≠ [] then [Effect.batchDelete res.2] else [])
      else [Effect.skipNotice])

/-! ### Association-list lemmas -/

section AssocList

variable {κ α : Type} [DecidableEq κ]

theorem alGet_eq_none {l : List (κ × α)} {k : κ} :
    alGet l k = none ↔ k ∉ l.map Prod.fst := by
  induction l with
  | nil => simp [alGet]
  | cons p rest ih =>
      obtain ⟨k', v⟩ := p
      by_cases h : k = k' <;> simp [alGet, h, ih]

theorem alGet_isSome {l : List (κ × α)} {k : κ} :
    (alGet l k).isSome = true ↔ k ∈ l.map Prod.fst := by
  rw [Option.isSome_iff_ne_none, Ne, alGet_eq_none, not_not]

theorem mem_of_alGet_eq_some {l : List (κ × α)} {k : κ} {v : α}
    (h : alGet l k = some v) : (k, v) ∈ l := by
  induction l with
  | nil => simp [alGet] at h
  | cons p rest ih =>
      obtain ⟨k', v'⟩ := p
      by_cases hk : k = k'
      · subst hk
        have hv : v' = v := by simpa [alGet] using h
        subst hv
        exact List.mem_cons_self _ _
      · simp only [alGet, if_neg hk] at h
        exact List.mem_cons_of_mem _ (ih h)

theorem alGet_eq_some_of_mem {l : List (κ × α)} (hnd : (l.map Prod.fst).Nodup)
    {k : κ} {v : α} (h : (k, v) ∈ l) : alGet l k = some v := by
  induction l with
  | nil => simp at h
  | cons p rest ih =>
      obtain ⟨k', v'⟩ := p
      simp only [List.map_cons, List.nodup_cons] at hnd
      rcases List.mem_cons.mp h with h1 | h1
      · injection h1 with h1a h1b
        subst h1a; subst h1b
        simp [alGet]
      · have hk : k ≠ k' := by
          rintro rfl
          exact hnd.1 (List.mem_map_of_mem Prod.fst h1)
        simp only [alGet, if_neg hk]
        exact ih hnd.2 h1

theorem alGet_eq_of_perm {l l' : List (κ × α)} (hp : l.Perm l')
    (hnd : (l.map Prod.fst).Nodup) (k : κ) : alGet l k = alGet l' k := by
  have hnd' : (l'.map Prod.fst).Nodup := ((hp.map Prod.fst).nodup_iff).mp hnd
  cases h : alGet l k with
  | none =>
      rw [eq_comm, alGet_eq_none]
      intro hmem
      rw [alGet_eq_none] at h
      exact h (((hp.map Prod.fst).mem_iff).mpr hmem)
  | some v =>
      exact (alGet_eq_some_of_mem hnd' (hp.mem_iff.mp (mem_of_alGet_eq_some h))).symm

theorem alGet_dictInsert_self (l : List (κ × α)) (k : κ) (v : α) :
    alGet (dictInsert k v l) k = some v := by
  induction l with
  | nil => simp [dictInsert, alGet]
  | cons p rest ih =>
      obtain ⟨k', v'⟩ := p
      by_cases h : k = k' <;> simp [dictInsert, alGet, h, ih]

theorem alGet_dictInsert_ne (l : List (κ × α)) {k k' : κ} (h : k' ≠ k) (v : α) :
    alGet (dictInsert k v l) k' = alGet l k' := by
  induction l with
  | nil => simp [dictInsert, alGet, h]
  | cons p rest ih =>
      obtain ⟨k'', v''⟩ := p
      by_cases h2 : k = k''
      · subst h2; simp [dictInsert, alGet, h]
      · by_cases h3 : k' = k'' <;> simp [dictInsert, alGet, h2, h3, ih]

theorem dictInsert_of_not_mem {l : List (κ × α)} {k : κ}
    (h : k ∉ l.map Prod.fst) (v : α) : dictInsert k v l = l ++ [(k, v)] := by
  induction l with
  | nil => rfl
  | cons p rest ih =>
      obtain ⟨k', v'⟩ := p
      simp only [List.map_cons, List.mem_cons, not_or] at h
      simp [dictInsert, h.1, ih h.2]

theorem mem_dictInsert {l : List (κ × α)} {k : κ} {v : α} {p : κ × α}
    (h : p ∈ dictInsert k v l) : p = (k, v) ∨ p ∈ l := by
  induction l with
  | nil => simpa [dictInsert] using h
  | cons q rest ih =>
      obtain ⟨k', v'⟩ := q
      by_cases hk : k = k'
      · subst hk
        rcases List.mem_cons.mp (by simpa [dictInsert] using h) with h1 | h1
        · exact Or.inl h1
        · exact Or.inr (List.mem_cons_of_mem _ h1)
      · rcases List.mem_cons.mp (by simpa [dictInsert, hk] using h) with h1 | h1
        · exact Or.inr (by simp [h1])
        · rcases ih h1 with h2 | h2
          · exact Or.inl h2
          · exact Or.inr (List.mem_cons_of_mem _ h2)

theorem map_fst_dictInsert_mem {l : List (κ × α)} {k : κ}
    (h : k ∈ l.map Prod.fst) (v : α) :
    (dictInsert k v l).map Prod.fst = l.map Prod.fst := by
  induction l with
  | nil => simp at h
  | cons p rest ih =>
      obtain ⟨k', v'⟩ := p
      by_cases hk : k = k'
      · subst hk; simp [dictInsert]
      · simp only [List.map_cons, List.mem_cons] at h
        rcases h with h | h
        · exact absurd h hk
        · simp [dictInsert, hk, ih h]

theorem nodup_map_fst_dictInsert {l : List (κ × α)}
    (hnd : (l.map Prod.fst).Nodup) (k : κ) (v : α) :
    ((dictInsert k v l).map Prod.fst).Nodup := by
  by_cases h : k ∈ l.map Prod.fst
  · rw [map_fst_dictInsert_mem h]
    exact hnd
  · rw [dictInsert_of_not_mem h]
    simp only [List.map_append, List.nodup_append]
    refine ⟨hnd, by simp, ?_⟩
    intro a ha
    simp only [List.map_cons, List.map_nil, List.mem_singleton]
    rintro rfl
    exact h ha

end AssocList

/-! ### Characterisation of the reconciliation loop -/

/-- The update operation (if any) that one `desired` entry produces. -/
def updateFor (existing : List (Key × (String × Record))) (p : Key × Record) :
    Option UpdateOp :=
  match alGet existing p.1 with
  | some (recId, old) =>
      if diffFields old p.2 = [] then none else some ⟨recId, diffFields old p.2⟩
  | none => none

theorem reconcileCore_toCreate (d : List (Key × Record))
    (e : List (Key × (String × Record))) :
    (reconcileCore d e).toCreate
      = (d.filter (fun p => (alGet e p.1).isNone)).map Prod.snd := by
  induction d with
  | nil => rfl
  | cons p rest ih =>
      obtain ⟨k, fields⟩ := p
      cases h : alGet e k with
      | none => simp [reconcileCore, h, List.filter_cons, ih]
      | some pr =>
          obtain ⟨recId, old⟩ := pr
          by_cases hd : diffFields old fields = [] <;>
            simp [reconcileCore, h, hd, List.filter_cons, ih]

theorem reconcileCore_toUpdate (d : List (Key × Record))
    (e : List (Key × (String × Record))) :
    (reconcileCore d e).toUpdate = d.filterMap (updateFor e) := by
  induction d with
  | nil => rfl
  | cons p rest ih =>
      obtain ⟨k, fields⟩ := p
      cases h : alGet e k with
      | none => simp [reconcileCore, updateFor, h, List.filterMap_cons, ih]
      | some pr =>
          obtain ⟨recId, old⟩ := pr
          by_cases hd : diffFields old fields = [] <;>
            simp [reconcileCore, updateFor, h, hd, List.filterMap_cons, ih]

theorem reconcileCore_keep (d : List (Key × Record))
    (e : List (Key × (String × Record))) :
    (reconcileCore d e).keep
      = (d.filter (fun p => (alGet e p.1).isSome)).map Prod.fst := by
  induction d with
  | nil => rfl
  | cons p rest ih =>
      obtain ⟨k, fields⟩ := p
      cases h : alGet e k with
      | none => simp [reconcileCore, h, List.filter_cons, ih]
      | some pr =>
          obtain ⟨recId, old⟩ := pr
          by_cases hd : diffFields old fields = [] <;>
            simp [reconcileCore, h, hd, List.filter_cons, ih]

theorem mem_keep_iff (d : List (Key × Record)) (e : List (Key × (String × Record)))
    (k : Key) :
    k ∈ (reconcileCore d e).keep ↔ k ∈ d.map Prod.fst ∧ k ∈ e.map Prod.fst := by
  rw [reconcileCore_keep]
  constructor
  · intro h
    obtain ⟨p, hp, rfl⟩ := List.mem_map.mp h
    have := List.mem_filter.mp hp
    exact ⟨List.mem_map_of_mem Prod.fst this.1, alGet_isSome.mp (by simpa using this.2)⟩
  · rintro ⟨hd, he⟩
    obtain ⟨p, hp, rfl⟩ := List.mem_map.mp hd
    exact List.mem_map_of_mem Prod.fst
      (List.mem_filter.mpr ⟨hp, by simpa using alGet_isSome.mpr he⟩)

theorem mem_diffFields {old fields : Record} {p : String × Value} :
    p ∈ diffFields old fields ↔ p ∈ fields ∧ alGet old p.1 ≠ some p.2 := by
  simp [diffFields, List.mem_filter]

theorem diffFields_eq_nil {old fields : Record} :
    diffFields old fields = [] ↔ ∀ p ∈ fields, alGet old p.1 = some p.2 := by
  simp [diffFields, List.filter_eq_nil_iff]

theorem alGet_filter_key {κ α : Type} [DecidableEq κ] (g : κ → Bool)
    (l : List (κ × α)) (k : κ) :
    alGet (l.filter (fun p => g p.1)) k = if g k then alGet l k else none := by
  induction l with
  | nil => simp [alGet]
  | cons p rest ih =>
      obtain ⟨k', v⟩ := p
      by_cases hk : k = k'
      · subst hk
        cases hg : g k <;> simp [alGet, List.filter_cons, hg, ih]
      · cases hg : g k' <;> cases hg2 : g k <;>
          simp [alGet, List.filter_cons, hg, hg2, hk, ih]

theorem alGet_sanitize (record : Record) {allowed_fields : List String}
    (h : allowed_fields ≠ []) (fld : String) :
    alGet (sanitize_record_for_airtable record allowed_fields) fld
      = if fld ∈ allowed_fields ∨ fld ∈ ALWAYS_ALLOWED then alGet record fld
        else none := by
  rw [sanitize_record_for_airtable, if_neg h,
    alGet_filter_key (fun s => decide (s ∈ allowed_fields ∨ s ∈ ALWAYS_ALLOWED))
      record fld]
  simp only [decide_eq_true_eq]

/-! ### Claim C1: the reconciliation partitions the key space -/

/-- **C1**: for every reconciliation run (`desired` map `d`, `existing` map
`e`), the create operations are exactly the desired records at keys absent
from the existing keys; every update operation's key lies in the intersection
of desired and existing keys; the delete list is exactly the remote ids of
existing entries whose key is not a desired key; the kept keys are exactly the
intersection; creates, kept keys and deletes together cover exactly
`existingKeys ∪ desiredKeys`, and no key receives two of the three actions. -/
theorem C1_reconcile_partition (d : List (Key × Record))
    (e : List (Key × (String × Record))) :
    (reconcile d e).1.toCreate
        = (d.filter (fun p => (alGet e p.1).isNone)).map Prod.snd ∧
    (∀ k, k ∈ (d.filter (fun p => (alGet e p.1).isNone)).map Prod.fst ↔
        k ∈ d.map Prod.fst ∧ k ∉ e.map Prod.fst) ∧
    (∀ u ∈ (reconcile d e).1.toUpdate, ∃ k old,
        k ∈ d.map Prod.fst ∧ k ∈ e.map Prod.fst ∧ alGet e k = some (u.id, old)) ∧
    (reconcile d e).2
        = (e.filter (fun p => decide (p.1 ∉ d.map Prod.fst))).map (fun p => p.2.1) ∧
    (∀ k, k ∈ (reconcile d e).1.keep ↔ k ∈ d.map Prod.fst ∧ k ∈ e.map Prod.fst) ∧
    (∀ k, (k ∈ d.map Prod.fst ∨ k ∈ e.map Prod.fst) ↔
        (k ∈ (d.filter (fun p => (alGet e p.1).isNone)).map Prod.fst ∨
          k ∈ (reconcile d e).1.keep ∨
          k ∈ (e.filter (fun p => decide (p.1 ∉ d.map Prod.fst))).map Prod.fst)) ∧
    (∀ k, ¬(k ∈ (d.filter (fun p => (alGet e p.1).isNone)).map Prod.fst ∧
        k ∈ (reconcile d e).1.keep)) ∧
    (∀ k, ¬(k ∈ (d.filter (fun p => (alGet e p.1).isNone)).map Prod.fst ∧
        k ∈ (e.filter (fun p => decide (p.1 ∉ d.map Prod.fst))).map Prod.fst)) ∧
    (∀ k, ¬(k ∈ (reconcile d e).1.keep ∧
        k ∈ (e.filter (fun p => decide (p.1 ∉ d.map Prod.fst))).map Prod.fst)) := by
  have hres : (reconcile d e).1 = reconcileCore d e := rfl
  have hcreateKeys : ∀ k, k ∈ (d.filter (fun p => (alGet e p.1).isNone)).map Prod.fst ↔
      k ∈ d.map Prod.fst ∧ k ∉ e.map Prod.fst := by
    intro k
    constructor
    · intro h
      obtain ⟨p, hp, rfl⟩ := List.mem_map.mp h
      have hm := List.mem_filter.mp hp
      refine ⟨List.mem_map_of_mem Prod.fst hm.1, ?_⟩
      rw [← alGet_eq_none]
      simpa [Option.isNone_iff_eq_none] using hm.2
    · rintro ⟨hd, he⟩
      obtain ⟨p, hp, rfl⟩ := List.mem_map.mp hd
      refine List.mem_map_of_mem Prod.fst (List.mem_filter.mpr ⟨hp, ?_⟩)
      simpa [Option.isNone_iff_eq_none, alGet_eq_none] using he
  have hkeep : ∀ k, k ∈ (reconcile d e).1.keep ↔
      k ∈ d.map Prod.fst ∧ k ∈ e.map Prod.fst := by
    intro k; rw [hres]; exact mem_keep_iff d e k
  have hdelKeys : ∀ k,
      k ∈ (e.filter (fun p => decide (p.1 ∉ d.map Prod.fst))).map Prod.fst ↔
      k ∈ e.map Prod.fst ∧ k ∉ d.map Prod.fst := by
    intro k
    constructor
    · intro h
      obtain ⟨p, hp, rfl⟩ := List.mem_map.mp h
      have hm := List.mem_filter.mp hp
      exact ⟨List.mem_map_of_mem Prod.fst hm.1, by simpa using hm.2⟩
    · rintro ⟨he, hd⟩
      obtain ⟨p, hp, rfl⟩ := List.mem_map.mp he
      exact List.mem_map_of_mem Prod.fst (List.mem_filter.mpr ⟨hp, by simpa using hd⟩)
  refine ⟨by rw [hres]; exact reconcileCore_toCreate d e, hcreateKeys, ?_, ?_, hkeep,
      ?_, ?_, ?_, ?_⟩
  · intro u hu
    rw [hres, reconcileCore_toUpdate] at hu
    obtain ⟨p, hp, hupd⟩ := List.mem_filterMap.mp hu
    cases hget : alGet e p.1 with
    | none => simp [updateFor, hget] at hupd
    | some pr =>
        obtain ⟨recId, old⟩ := pr
        by_cases hdiff : diffFields old p.2 = []
        · simp [updateFor, hget, hdiff] at hupd
        · simp only [updateFor, hget, if_neg hdiff, Option.some.injEq] at hupd
          subst hupd
          exact ⟨p.1, old, List.mem_map_of_mem Prod.fst hp,
            alGet_isSome.mp (by simp [hget]), hget⟩
  · show ((e.filter (fun p => decide (p.1 ∉ (reconcileCore d e).keep))).map
        (fun p => p.2.1)) = _
    congr 1
    refine List.filter_congr ?_
    intro p hp
    have hpe : p.1 ∈ e.map Prod.fst := List.mem_map_of_mem Prod.fst hp
    by_cases hd : p.1 ∈ d.map Prod.fst
    · simp [mem_keep_iff, hd, hpe]
    · simp [mem_keep_iff, hd, hpe]
  · intro k
    constructor
    · intro h
      by_cases hd : k ∈ d.map Prod.fst
      · by_cases he : k ∈ e.map Prod.fst
        · exact Or.inr (Or.inl ((hkeep k).mpr ⟨hd, he⟩))
        · exact Or.inl ((hcreateKeys k).mpr ⟨hd, he⟩)
      · rcases h with h | h
        · exact absurd h hd
        · exact Or.inr (Or.inr ((hdelKeys k).mpr ⟨h, hd⟩))
    · rintro (h | h | h)
      · exact Or.inl ((hcreateKeys k).mp h).1
      · exact Or.inl ((hkeep k).mp h).1
      · exact Or.inr ((hdelKeys k).mp h).1
  · rintro k ⟨h1, h2⟩
    exact ((hcreateKeys k).mp h1).2 ((hkeep k).mp h2).2
  · rintro k ⟨h1, h2⟩
    exact ((hdelKeys k).mp h2).2 ((hcreateKeys k).mp h1).1
  · rintro k ⟨h1, h2⟩
    exact ((hdelKeys k).mp h2).2 ((hkeep k).mp h1).1

/-- Witness for C1 on the spec's scenario: remote has key `obj:2` only,
desired has key `obj:1` only, so `obj:1` is created and `obj:2`'s row id is
deleted. -/
theorem C1_reconcile_partition_witness :
    (reconcile [(Key.obj "1", [("Titel", Value.str "A")])]
        [(Key.obj "2", ("ra", [("Objektnummer", Value.str "2")]))]).1.toCreate
      = [[("Titel", Value.str "A")]] ∧
    (reconcile [(Key.obj "1", [("Titel", Value.str "A")])]
        [(Key.obj "2", ("ra", [("Objektnummer", Value.str "2")]))]).2 = ["ra"] ∧
    ¬(Key.obj "1" ∈
        ([(Key.obj "1", [("Titel", Value.str "A")])].filter
          (fun p => (alGet [(Key.obj "2", ("ra", [("Objektnummer", Value.str "2")]))]
            p.1).isNone)).map Prod.fst ∧
      Key.obj "1" ∈ (reconcile [(Key.obj "1", [("Titel", Value.str "A")])]
        [(Key.obj "2", ("ra", [("Objektnummer", Value.str "2")]))]).1.keep) := by
  have h := C1_reconcile_partition [(Key.obj "1", [("Titel", Value.str "A")])]
    [(Key.obj "2", ("ra", [("Objektnummer", Value.str "2")]))]
  refine ⟨?_, ?_, h.2.2.2.2.2.2.1 (Key.obj "1")⟩
  · rw [h.1]; decide
  · rw [h.2.2.2.1]; decide

/-! ### Claim C2: minimal field-level diffs -/

/-- **C2**: the diff for an existing row contains exactly the fields of the
sanitised desired record whose value differs from the remote row's current
value; each desired entry with a matching existing row yields an update
operation exactly when the diff is non-empty, and that operation carries the
diff only (never the full record); entries with an everywhere-equal record
yield no update. -/
theorem C2_update_minimal_diff (d : List (Key × Record))
    (e : List (Key × (String × Record))) :
    (∀ (old fields : Record) (p : String × Value),
        p ∈ diffFields old fields ↔ p ∈ fields ∧ alGet old p.1 ≠ some p.2) ∧
    ((reconcileCore d e).toUpdate = d.filterMap (updateFor e)) ∧
    (∀ p : Key × Record, ∀ recId old, alGet e p.1 = some (recId, old) →
        updateFor e p = if diffFields old p.2 = [] then none
          else some (UpdateOp.mk recId (diffFields old p.2))) ∧
    (∀ p ∈ d, (∀ recId old, alGet e p.1 = some (recId, old) →
        diffFields old p.2 = []) → updateFor e p = none) := by
  refine ⟨fun old fields p => mem_diffFields, reconcileCore_toUpdate d e, ?_, ?_⟩
  · intro p recId old hget
    simp [updateFor, hget]
  · intro p _ h
    cases hget : alGet e p.1 with
    | none => simp [updateFor, hget]
    | some pr =>
        obtain ⟨recId, old⟩ := pr
        simp [updateFor, hget, h recId old hget]

/-- Witness for C2: a desired record equal to the remote row's fields produces
an empty diff and no update, while a changed price produces the one-field diff
`{Preis: 120}`. -/
theorem C2_update_minimal_diff_witness :
    ("Preis", Value.num 120) ∈ diffFields
        [("Titel", Value.str "X"), ("Preis", Value.num 100)]
        [("Titel", Value.str "X"), ("Preis", Value.num 120)] ∧
    (reconcileCore [(Key.obj "1", [("Titel", Value.str "X"), ("Preis", Value.num 120)])]
        [(Key.obj "1", ("r1", [("Titel", Value.str "X"), ("Preis", Value.num 100)]))]).toUpdate
      = [UpdateOp.mk "r1" [("Preis", Value.num 120)]] ∧
    (reconcileCore [(Key.obj "1", [("Titel", Value.str "X"), ("Preis", Value.num 100)])]
        [(Key.obj "1", ("r1", [("Titel", Value.str "X"), ("Preis", Value.num 100)]))]).toUpdate
      = [] := by
  have h1 := C2_update_minimal_diff
    [(Key.obj "1", [("Titel", Value.str "X"), ("Preis", Value.num 100)])]
    [(Key.obj "1", ("r1", [("Titel", Value.str "X"), ("Preis", Value.num 100)]))]
  have h2 := C2_update_minimal_diff
    [(Key.obj "1", [("Titel", Value.str "X"), ("Preis", Value.num 120)])]
    [(Key.obj "1", ("r1", [("Titel", Value.str "X"), ("Preis", Value.num 100)]))]
  refine ⟨(h2.1 _ _ _).mpr ⟨by decide, by decide⟩, ?_, ?_⟩
  · rw [h2.2.1]; decide
  · rw [h1.2.1]; decide

/-! ### Claim C6: identity-key priority -/

/-- **C6**: the identity key prefers the trimmed non-empty object identifier
(`obj:`), then the trimmed non-empty source URL (`url:`), and otherwise hashes
the order-independent serialisation of all fields; in particular a record with
both a non-empty identifier and a non-empty URL gets the `obj:` key. -/
theorem C6_unique_key_priority (fields : Record) :
    (pyStrip (pyGetStrOr fields "Objektnummer") ≠ "" →
        unique_key fields = Key.obj (pyStrip (pyGetStrOr fields "Objektnummer"))) ∧
    (pyStrip (pyGetStrOr fields "Objektnummer") = "" →
        pyStrip (pyGetStrOr fields "Webseite") ≠ "" →
        unique_key fields = Key.url (pyStrip (pyGetStrOr fields "Webseite"))) ∧
    (pyStrip (pyGetStrOr fields "Objektnummer") = "" →
        pyStrip (pyGetStrOr fields "Webseite") = "" →
        unique_key fields = Key.hash (canonicalize fields)) := by
  refine ⟨fun h => ?_, fun h1 h2 => ?_, fun h1 h2 => ?_⟩ <;>
    simp [unique_key, *]

/-- Witness for C6: a record carrying both `"A-123"` and a URL resolves to
`obj:A-123`, never the URL key; without an identifier the URL key is used;
with neither, the hash key. -/
theorem C6_unique_key_priority_witness :
    unique_key [("Objektnummer", Value.str " A-123 "), ("Webseite", Value.str "https://x/y")]
      = Key.obj "A-123" ∧
    unique_key [("Webseite", Value.str "https://x/y")] = Key.url "https://x/y" ∧
    unique_key [("Titel", Value.str "T")]
      = Key.hash (canonicalize [("Titel", Value.str "T")]) := by
  refine ⟨?_, ?_, ?_⟩
  · have h := (C6_unique_key_priority
      [("Objektnummer", Value.str " A-123 "), ("Webseite", Value.str "https://x/y")]).1
      (by decide)
    rw [h]; decide
  · exact (C6_unique_key_priority [("Webseite", Value.str "https://x/y")]).2.1
      (by decide) (by decide)
  · exact (C6_unique_key_priority [("Titel", Value.str "T")]).2.2 (by decide) (by decide)

/-! ### Claim C7: absent fields are never asserted -/

theorem alGet_applyPatch_of_not_mem {diff : Record} {fld : String}
    (h : fld ∉ diff.map Prod.fst) (old : Record) :
    alGet (applyPatch old diff) fld = alGet old fld := by
  induction diff generalizing old with
  | nil => rfl
  | cons p rest ih =>
      simp only [List.map_cons, List.mem_cons, not_or] at h
      rw [show applyPatch old (p :: rest) = applyPatch (setField old p.1 p.2) rest from rfl,
        ih (by simpa using h.2), setField, alGet_dictInsert_ne _ h.1]

/-- **C7**: every update carries only fields present on the sanitised desired
record (so remote-only fields are never mentioned); patching a row leaves
every unnamed field unchanged; and a record whose price failed to parse omits
the `Preis` field entirely. -/
theorem C7_absent_fields_frame :
    (∀ (d : List (Key × Record)) (e : List (Key × (String × Record))) u,
        u ∈ (reconcileCore d e).toUpdate →
        ∃ k fields recId old, (k, fields) ∈ d ∧ alGet e k = some (recId, old) ∧
          u = UpdateOp.mk recId (diffFields old fields) ∧
          ∀ p ∈ u.fields, p ∈ fields) ∧
    (∀ (old diff : Record) (fld : String), fld ∉ diff.map Prod.fst →
        alGet (applyPatch old diff) fld = alGet old fld) ∧
    (∀ row : RawRow, parse_price_to_number row.preis = none →
        alGet (make_record row) "Preis" = none) ∧
    (∀ row : RawRow, ∀ q : Rat, parse_price_to_number row.preis = some q →
        alGet (make_record row) "Preis" = some (Value.num q)) := by
  refine ⟨?_, fun old diff fld h => alGet_applyPatch_of_not_mem h old, ?_, ?_⟩
  · intro d e u hu
    rw [reconcileCore_toUpdate] at hu
    obtain ⟨p, hp, hupd⟩ := List.mem_filterMap.mp hu
    cases hget : alGet e p.1 with
    | none => simp [updateFor, hget] at hupd
    | some pr =>
        obtain ⟨recId, old⟩ := pr
        by_cases hdiff : diffFields old p.2 = []
        · simp [updateFor, hget, hdiff] at hupd
        · simp only [updateFor, hget, if_neg hdiff, Option.some.injEq] at hupd
          subst hupd
          exact ⟨p.1, p.2, recId, old, by simpa using hp, hget, rfl,
            fun q hq => (mem_diffFields.mp hq).1⟩
  · intro row h
    by_cases hk : row.kurzbeschreibung ≠ "" <;>
      simp [make_record, h, hk, alGet]
  · intro row q h
    by_cases hk : row.kurzbeschreibung ≠ "" <;>
      simp [make_record, h, hk, alGet]

/-- Witness for C7: an update diff against a remote row with a user-added
column `Notizen` never mentions `Notizen`, and patching keeps it; a raw row
with unparsable price yields a record without `Preis`. -/
theorem C7_absent_fields_frame_witness :
    alGet (applyPatch
        [("Titel", Value.str "A"), ("Notizen", Value.str "user data")]
        (diffFields [("Titel", Value.str "A"), ("Notizen", Value.str "user data")]
          [("Titel", Value.str "B")])) "Notizen" = some (Value.str "user data") ∧
    alGet (make_record
        { titel := "T", url := "u", beschreibung := "b", kurzbeschreibung := "",
          objektnummer := "o", kategorie := "Kaufen", objekttyp := "Wohnhaus",
          preis := "", ort := "", bild := "" }) "Preis" = none := by
  constructor
  · refine C7_absent_fields_frame.2.1 _ _ "Notizen" ?_
    decide
  · refine C7_absent_fields_frame.2.2.1 _ ?_
    decide

/-! ### Claim C3: sanitisation vs. pure whitelist restriction -/

/-- Sanitisation as worded by the spec: restriction to exactly the whitelist
(set intersection of the record's keys with the whitelist). -/
def specWhitelistRestrict (record : Record) (allowed_fields : List String) : Record :=
  record.filter (fun p => decide (p.1 ∈ allowed_fields))

/-- Counterexample to **C3** as stated: with the non-empty whitelist
`{Titel}`, a record holding only `Kurzbeschreibung` sanitises to itself (the
code always admits `Kurzbeschreibung`), not to the empty restriction the
claim demands. -/
theorem C3_sanitize_counterexample :
    sanitize_record_for_airtable [("Kurzbeschreibung", Value.str "x")] ["Titel"]
        = [("Kurzbeschreibung", Value.str "x")] ∧
    specWhitelistRestrict [("Kurzbeschreibung", Value.str "x")] ["Titel"] = [] ∧
    sanitize_record_for_airtable [("Kurzbeschreibung", Value.str "x")] ["Titel"]
      ≠ specWhitelistRestrict [("Kurzbeschreibung", Value.str "x")] ["Titel"] := by
  decide

/-- **C3 (amended)**: with an empty whitelist the record is returned
unchanged; with a non-empty whitelist the sanitised record is exactly the
restriction of the record to the whitelist **plus the always-allowed field
`Kurzbeschreibung`**. -/
theorem C3_sanitize_amended (record : Record) (allowed_fields : List String) :
    (allowed_fields = [] → sanitize_record_for_airtable record allowed_fields = record) ∧
    (allowed_fields ≠ [] → ∀ fld : String,
      alGet (sanitize_record_for_airtable record allowed_fields) fld
        = if fld ∈ allowed_fields ∨ fld ∈ ALWAYS_ALLOWED then alGet record fld
          else none) := by
  constructor
  · intro h
    simp [sanitize_record_for_airtable, h]
  · intro h fld
    exact alGet_sanitize record h fld

/-- Witness for the amended C3: whitelist `{Titel}` keeps `Titel`, keeps the
always-allowed `Kurzbeschreibung`, drops `Foo`; the empty whitelist keeps
everything. -/
theorem C3_sanitize_amended_witness :
    alGet (sanitize_record_for_airtable
        [("Titel", Value.str "T"), ("Foo", Value.str "F"),
          ("Kurzbeschreibung", Value.str "K")] ["Titel"]) "Foo" = none ∧
    alGet (sanitize_record_for_airtable
        [("Titel", Value.str "T"), ("Foo", Value.str "F"),
          ("Kurzbeschreibung", Value.str "K")] ["Titel"]) "Titel"
      = some (Value.str "T") ∧
    alGet (sanitize_record_for_airtable
        [("Titel", Value.str "T"), ("Foo", Value.str "F"),
          ("Kurzbeschreibung", Value.str "K")] ["Titel"]) "Kurzbeschreibung"
      = some (Value.str "K") ∧
    sanitize_record_for_airtable [("Foo", Value.str "F")] [] = [("Foo", Value.str "F")] := by
  have h := C3_sanitize_amended
    [("Titel", Value.str "T"), ("Foo", Value.str "F"), ("Kurzbeschreibung", Value.str "K")]
    ["Titel"]
  have h0 := C3_sanitize_amended [("Foo", Value.str "F")] []
  refine ⟨?_, ?_, ?_, h0.1 rfl⟩
  · rw [h.2 (by decide) "Foo", if_neg (by decide)]
  · rw [h.2 (by decide) "Titel", if_pos (by decide)]; decide
  · rw [h.2 (by decide) "Kurzbeschreibung", if_pos (by decide)]; decide

/-! ### Claim C9: whitelist inference from the first remote row -/

/-- Counterexample to **C9** as stated: `Kurzbeschreibung`, populated only on
the second remote row, is indeed excluded from the inferred whitelist, but is
*not* stripped during sanitisation — the code always admits it. -/
theorem C9_first_row_counterexample :
    airtable_existing_fields
        [[("Titel", Value.str "A")],
          [("Titel", Value.str "B"), ("Kurzbeschreibung", Value.str "K")]]
      = ["Titel"] ∧
    "Kurzbeschreibung" ∉ airtable_existing_fields
        [[("Titel", Value.str "A")],
          [("Titel", Value.str "B"), ("Kurzbeschreibung", Value.str "K")]] ∧
    alGet (sanitize_record_for_airtable
        [("Titel", Value.str "T"), ("Kurzbeschreibung", Value.str "C")]
        (airtable_existing_fields
          [[("Titel", Value.str "A")],
            [("Titel", Value.str "B"), ("Kurzbeschreibung", Value.str "K")]]))
      "Kurzbeschreibung" = some (Value.str "C") := by
  decide

/-- **C9 (amended)**: the whitelist is the empty set for an empty table and
exactly the first listed row's key set otherwise; when that key set is
non-empty, any field outside it **other than the always-allowed
`Kurzbeschreibung`** is stripped from every record during sanitisation. -/
theorem C9_first_row_amended (allFields : List Record) (r : Record) (fld : String) :
    airtable_existing_fields ([] : List Record) = [] ∧
    (∀ (f : Record) (rest : List Record),
        airtable_existing_fields (f :: rest) = f.map Prod.fst) ∧
    (airtable_existing_fields allFields ≠ [] →
      fld ∉ airtable_existing_fields allFields → fld ≠ "Kurzbeschreibung" →
      alGet (sanitize_record_for_airtable r (airtable_existing_fields allFields)) fld
        = none) := by
  refine ⟨rfl, fun f rest => rfl, ?_⟩
  intro hne hnotin hnotkb
  rw [alGet_sanitize r hne fld, if_neg ?_]
  rintro (h | h)
  · exact hnotin h
  · simp only [ALWAYS_ALLOWED, List.mem_singleton] at h
    exact hnotkb h

/-- Witness for the amended C9: with first row keys `{Titel}`, the field
`Preis` (absent from the first row) is stripped from a desired record. -/
theorem C9_first_row_amended_witness :
    alGet (sanitize_record_for_airtable
        [("Titel", Value.str "T"), ("Preis", Value.num 100)]
        (airtable_existing_fields
          [[("Titel", Value.str "A")], [("Preis", Value.num 5)]]))
      "Preis" = none := by
  exact (C9_first_row_amended [[("Titel", Value.str "A")], [("Preis", Value.num 5)]]
    [("Titel", Value.str "T"), ("Preis", Value.num 100)] "Preis").2.2
    (by decide) (by decide) (by decide)

/-! ### Claim C8: missing credentials skip synchronisation -/

/-- **C8**: if any of the three Airtable credentials is absent, the run does
not fail: no remote call happens at all (not even the start-up cache listing),
the CSV export of the extracted records is still produced, and it is followed
by the visible skip notice — the whole trace is exactly
`[csvExport, skipNotice]`. -/
theorem C8_missing_credentials_skip_sync (c : Config) (all_rows : List Record)
    (remote : List (String × Record))
    (hcred : c.airtableToken = "" ∨ c.airtableBase = "" ∨ c.airtableTableId = "")
    (hrows : all_rows ≠ []) :
    runModel c all_rows remote = [Effect.csvExport all_rows, Effect.skipNotice] := by
  have hconf : ¬syncConfigured c := by
    rcases hcred with h | h | h
    · exact fun hs => hs.1 h
    · exact fun hs => hs.2.1 h
    · exact fun hs => hs.2.2 (by rw [airtable_table_segment, if_pos (Or.inr h)])
  simp [runModel, hconf, hrows]

/-- Witness for C8: an empty token with rows present yields exactly the CSV
export followed by the skip notice. -/
theorem C8_missing_credentials_skip_sync_witness :
    runModel ⟨"", "appBase", "tblTable"⟩ [[("Titel", Value.str "T")]]
        [("ra", [("Titel", Value.str "old")])]
      = [Effect.csvExport [[("Titel", Value.str "T")]], Effect.skipNotice] :=
  C8_missing_credentials_skip_sync _ _ _ (Or.inl rfl) (by decide)

/-! ### Claim C4: key collisions keep the longest description -/

theorem mem_dictInsert_nodup {κ α : Type} [DecidableEq κ] {l : List (κ × α)}
    (hnd : (l.map Prod.fst).Nodup) {k : κ} {v : α} {p : κ × α}
    (h : p ∈ dictInsert k v l) : p = (k, v) ∨ (p ∈ l ∧ p.1 ≠ k) := by
  induction l with
  | nil => simp only [dictInsert] at h; exact Or.inl (by simpa using h)
  | cons q rest ih =>
      obtain ⟨k', v'⟩ := q
      simp only [List.map_cons, List.nodup_cons] at hnd
      by_cases hk : k = k'
      · subst hk
        rcases List.mem_cons.mp (by simpa [dictInsert] using h) with h1 | h1
        · exact Or.inl h1
        · refine Or.inr ⟨List.mem_cons_of_mem _ h1, ?_⟩
          rintro rfl
          exact hnd.1 (List.mem_map_of_mem Prod.fst h1)
      · rcases List.mem_cons.mp (by simpa [dictInsert, hk] using h) with h1 | h1
        · refine Or.inr ⟨by simp [h1], ?_⟩
          rw [h1]
          exact fun hc => hk hc.symm
        · rcases ih hnd.2 h1 with h2 | h2
          · exact Or.inl h2
          · exact Or.inr ⟨List.mem_cons_of_mem _ h2.1, h2.2⟩

theorem mem_map_fst_dictInsert {κ α : Type} [DecidableEq κ] {l : List (κ × α)}
    {k k' : κ} {v : α} :
    k' ∈ (dictInsert k v l).map Prod.fst ↔ k' = k ∨ k' ∈ l.map Prod.fst := by
  by_cases h : k ∈ l.map Prod.fst
  · rw [map_fst_dictInsert_mem h]
    constructor
    · exact Or.inr
    · rintro (rfl | h2)
      · exact h
      · exact h2
  · rw [dictInsert_of_not_mem h]
    simp [or_comm]

/-- The invariant of the `desired`-building loop (lines 1031–1041) with the
empty whitelist: every map entry is one of the processed records, keyed by its
own identity key, with a description at least as long as every processed
record sharing that key; and every processed record's key is present. -/
def DesiredInv (processed : List Record) (m : List (Key × Record)) : Prop :=
  (m.map Prod.fst).Nodup ∧
  (∀ p ∈ m, p.2 ∈ processed ∧ unique_key p.2 = p.1 ∧
    ∀ r ∈ processed, unique_key r = p.1 → descLen r ≤ descLen p.2) ∧
  (∀ r ∈ processed, unique_key r ∈ m.map Prod.fst)

theorem buildDesired_nil_invariant (rows : List Record) :
    ∀ (processed : List Record) (m : List (Key × Record)),
      DesiredInv processed m →
      DesiredInv (processed ++ rows)
        (rows.foldl
          (fun m r =>
            let k := unique_key r
            match alGet m k with
            | some cur =>
                if descLen r > descLen cur then
                  dictInsert k (sanitize_record_for_airtable r []) m
                else m
            | none => dictInsert k (sanitize_record_for_airtable r []) m)
          m) := by
  induction rows with
  | nil => intro processed m h; simpa using h
  | cons r rest ih =>
      intro processed m h
      obtain ⟨hnd, hent, hcov⟩ := h
      have hsan : sanitize_record_for_airtable r [] = r := rfl
      rw [List.foldl_cons]
      have hstep : DesiredInv (processed ++ [r])
          (match alGet m (unique_key r) with
            | some cur =>
                if descLen r > descLen cur then
                  dictInsert (unique_key r) (sanitize_record_for_airtable r []) m
                else m
            | none => dictInsert (unique_key r) (sanitize_record_for_airtable r []) m) := by
        cases halGet : alGet m (unique_key r) with
        | some cur =>
            have hcur : (unique_key r, cur) ∈ m := mem_of_alGet_eq_some halGet
            have hred : (match some cur with
                | some cur =>
                    if descLen r > descLen cur then
                      dictInsert (unique_key r) (sanitize_record_for_airtable r []) m
                    else m
                | none => dictInsert (unique_key r) (sanitize_record_for_airtable r []) m)
              = if descLen r > descLen cur then
                  dictInsert (unique_key r) (sanitize_record_for_airtable r []) m
                else m := rfl
            rw [hred]
            by_cases hlen : descLen r > descLen cur
            · rw [if_pos hlen, hsan]
              refine ⟨nodup_map_fst_dictInsert hnd _ _, ?_, ?_⟩
              · intro p hp
                rcases mem_dictInsert_nodup hnd hp with rfl | ⟨hp1, hp2⟩
                · refine ⟨by simp, rfl, ?_⟩
                  intro r' hr' hk'
                  rcases List.mem_append.mp hr' with hr' | hr'
                  · have := (hent _ hcur).2.2 r' hr' hk'
                    exact this.trans (Nat.le_of_lt hlen)
                  · rw [List.mem_singleton.mp hr']
                · obtain ⟨hmem, hkey, hbound⟩ := hent p hp1
                  refine ⟨List.mem_append_left _ hmem, hkey, ?_⟩
                  intro r' hr' hk'
                  rcases List.mem_append.mp hr' with hr' | hr'
                  · exact hbound r' hr' hk'
                  · rw [List.mem_singleton.mp hr'] at hk'
                    exact absurd hk'.symm hp2
              · intro r' hr'
                rcases List.mem_append.mp hr' with hr' | hr'
                · exact mem_map_fst_dictInsert.mpr (Or.inr (hcov r' hr'))
                · rw [List.mem_singleton.mp hr']
                  exact mem_map_fst_dictInsert.mpr (Or.inl rfl)
            · rw [if_neg hlen]
              refine ⟨hnd, ?_, ?_⟩
              · intro p hp
                obtain ⟨hmem, hkey, hbound⟩ := hent p hp
                refine ⟨List.mem_append_left _ hmem, hkey, ?_⟩
                intro r' hr' hk'
                rcases List.mem_append.mp hr' with hr' | hr'
                · exact hbound r' hr' hk'
                · rw [List.mem_singleton.mp hr'] at hk' ⊢
                  have h1 : alGet m p.1 = some p.2 := alGet_eq_some_of_mem hnd hp
                  rw [← hk', halGet] at h1
                  have hcur2 : cur = p.2 := by injection h1
                  rw [← hcur2]
                  exact Nat.le_of_not_lt hlen
              · intro r' hr'
                rcases List.mem_append.mp hr' with hr' | hr'
                · exact hcov r' hr'
                · rw [List.mem_singleton.mp hr']
                  exact alGet_isSome.mp (by simp [halGet])
        | none =>
            have hred : (match (none : Option Record) with
                | some cur =>
                    if descLen r > descLen cur then
                      dictInsert (unique_key r) (sanitize_record_for_airtable r []) m
                    else m
                | none => dictInsert (unique_key r) (sanitize_record_for_airtable r []) m)
              = dictInsert (unique_key r) (sanitize_record_for_airtable r []) m := rfl
            rw [hred, hsan]
            have hknot : unique_key r ∉ m.map Prod.fst := alGet_eq_none.mp halGet
            refine ⟨nodup_map_fst_dictInsert hnd _ _, ?_, ?_⟩
            · intro p hp
              rcases mem_dictInsert_nodup hnd hp with rfl | ⟨hp1, hp2⟩
              · refine ⟨by simp, rfl, ?_⟩
                intro r' hr' hk'
                rcases List.mem_append.mp hr' with hr' | hr'
                · have hk2 : unique_key r' = unique_key r := hk'
                  exact absurd (hk2 ▸ hcov r' hr') hknot
                · rw [List.mem_singleton.mp hr']
              · obtain ⟨hmem, hkey, hbound⟩ := hent p hp1
                refine ⟨List.mem_append_left _ hmem, hkey, ?_⟩
                intro r' hr' hk'
                rcases List.mem_append.mp hr' with hr' | hr'
                · exact hbound r' hr' hk'
                · rw [List.mem_singleton.mp hr'] at hk'
                  exact absurd hk'.symm hp2
            · intro r' hr'
              rcases List.mem_append.mp hr' with hr' | hr'
              · exact mem_map_fst_dictInsert.mpr (Or.inr (hcov r' hr'))
              · rw [List.mem_singleton.mp hr']
                exact mem_map_fst_dictInsert.mpr (Or.inl rfl)
      have := ih (processed ++ [r]) _ hstep
      simpa [List.append_assoc] using this

/-- Counterexample to **C4** as stated: with the non-empty whitelist
`{Titel, Objektnummer}` (which strips `Beschreibung`), the collision test
compares the incoming record's raw description against the *sanitised* stored
record, whose description is always empty — so the later record (title `B`)
with the *shorter* raw description (1 character) replaces the earlier record
(title `A`) with the longer one (10 characters). -/
theorem C4_dedup_counterexample :
    descLen [("Objektnummer", Value.str "1"), ("Titel", Value.str "A"),
        ("Beschreibung", Value.str "0123456789")]
      > descLen [("Objektnummer", Value.str "1"), ("Titel", Value.str "B"),
        ("Beschreibung", Value.str "x")] ∧
    alGet (buildDesired ["Titel", "Objektnummer"]
        [[("Objektnummer", Value.str "1"), ("Titel", Value.str "A"),
          ("Beschreibung", Value.str "0123456789")],
         [("Objektnummer", Value.str "1"), ("Titel", Value.str "B"),
          ("Beschreibung", Value.str "x")]]) (Key.obj "1")
      = some [("Objektnummer", Value.str "1"), ("Titel", Value.str "B")] := by
  decide

/-- **C4 (amended)**: when the whitelist is empty (so sanitisation keeps the
description and the stored record is the raw record), the record retained for
a key is one of the input records, carries that identity key, and its
description is at least as long as that of every input record sharing the key
— i.e. the longest description wins (first record wins ties).  With a
non-empty whitelist that strips `Beschreibung`, the collision test instead
compares the incoming raw description against the sanitised stored record's
(empty) description, as the counterexample shows. -/
theorem C4_dedup_longest_description (rows : List Record) (k : Key) (rec : Record)
    (h : alGet (buildDesired [] rows) k = some rec) :
    rec ∈ rows ∧ unique_key rec = k ∧
      ∀ r ∈ rows, unique_key r = k → descLen r ≤ descLen rec := by
  have hinv : DesiredInv rows (buildDesired [] rows) := by
    have := buildDesired_nil_invariant rows [] [] ⟨by simp, by simp, by simp⟩
    simpa [buildDesired] using this
  obtain ⟨hmem, hkey, hbound⟩ := hinv.2.1 (k, rec) (mem_of_alGet_eq_some h)
  exact ⟨hmem, hkey, hbound⟩

/-- Witness for the amended C4: of two records sharing key `obj:1`, the one
with the longer description is retained and bounds both descriptions. -/
theorem C4_dedup_longest_description_witness :
    [("Objektnummer", Value.str "1"), ("Titel", Value.str "B"),
        ("Beschreibung", Value.str "longer-desc")] ∈
      ([[("Objektnummer", Value.str "1"), ("Titel", Value.str "A"),
          ("Beschreibung", Value.str "short")],
        [("Objektnummer", Value.str "1"), ("Titel", Value.str "B"),
          ("Beschreibung", Value.str "longer-desc")]] : List Record) ∧
    (∀ r ∈ ([[("Objektnummer", Value.str "1"), ("Titel", Value.str "A"),
          ("Beschreibung", Value.str "short")],
        [("Objektnummer", Value.str "1"), ("Titel", Value.str "B"),
          ("Beschreibung", Value.str "longer-desc")]] : List Record),
      unique_key r = Key.obj "1" →
      descLen r ≤ descLen [("Objektnummer", Value.str "1"), ("Titel", Value.str "B"),
        ("Beschreibung", Value.str "longer-desc")]) := by
  have h := C4_dedup_longest_description
    [[("Objektnummer", Value.str "1"), ("Titel", Value.str "A"),
        ("Beschreibung", Value.str "short")],
      [("Objektnummer", Value.str "1"), ("Titel", Value.str "B"),
        ("Beschreibung", Value.str "longer-desc")]]
    (Key.obj "1")
    [("Objektnummer", Value.str "1"), ("Titel", Value.str "B"),
      ("Beschreibung", Value.str "longer-desc")]
    (by decide)
  exact ⟨h.1, h.2.2⟩

/-! ### Claim C10: price formatting / parsing round trip -/

theorem digitVal_digitChar {d : Nat} (h : d < 10) : digitVal (digitChar d) = d := by
  interval_cases d <;> decide

theorem digitChar_isDigit {d : Nat} (h : d < 10) : (digitChar d).isDigit = true := by
  interval_cases d <;> decide

theorem digitChar_ne_dot (d : Nat) : digitChar d ≠ '.' := by
  unfold digitChar
  split <;> decide

theorem digitChar_not_ws (d : Nat) : (digitChar d).isWhitespace = false := by
  unfold digitChar
  split <;> decide

/-- The value of the least-significant-first digit list. -/
def valRev : List Char → Nat
  | [] => 0
  | c :: cs => digitVal c + 10 * valRev cs

theorem valRev_natDigitsRevAux : ∀ (fuel n : Nat), n ≤ fuel →
    valRev (natDigitsRevAux n fuel) = n := by
  intro fuel
  induction fuel with
  | zero =>
      intro n h
      obtain rfl := Nat.le_zero.mp h
      rfl
  | succ fuel ih =>
      intro n h
      match n with
      | 0 => rfl
      | m + 1 =>
          have hdiv : (m + 1) / 10 ≤ fuel :=
            Nat.le_of_lt_succ (Nat.lt_of_lt_of_le
              (Nat.div_lt_self (Nat.succ_pos m) (by norm_num)) h)
          show valRev (digitChar ((m + 1) % 10) :: natDigitsRevAux ((m + 1) / 10) fuel)
            = m + 1
          show digitVal (digitChar ((m + 1) % 10))
            + 10 * valRev (natDigitsRevAux ((m + 1) / 10) fuel) = m + 1
          rw [digitVal_digitChar (Nat.mod_lt _ (by norm_num)), ih _ hdiv,
            Nat.mod_add_div]

theorem mem_natDigitsRevAux : ∀ (fuel n : Nat) (c : Char),
    c ∈ natDigitsRevAux n fuel → ∃ d : Nat, d < 10 ∧ c = digitChar d := by
  intro fuel
  induction fuel with
  | zero => intro n c h; simp [natDigitsRevAux] at h
  | succ fuel ih =>
      intro n c h
      match n with
      | 0 => simp [natDigitsRevAux] at h
      | m + 1 =>
          rcases List.mem_cons.mp h with h1 | h1
          · exact ⟨(m + 1) % 10, Nat.mod_lt _ (by norm_num), h1⟩
          · exact ih _ _ h1

theorem mem_natDigitsStr {n : Nat} {c : Char} (h : c ∈ natDigitsStr n) :
    ∃ d : Nat, d < 10 ∧ c = digitChar d := by
  unfold natDigitsStr at h
  by_cases h0 : n = 0
  · rw [if_pos h0] at h
    exact ⟨0, by norm_num, List.mem_singleton.mp h⟩
  · rw [if_neg h0] at h
    exact mem_natDigitsRevAux n n c (List.mem_reverse.mp h)

theorem digitsVal_append_singleton (xs : List Char) (c : Char) :
    digitsVal (xs ++ [c]) = 10 * digitsVal xs + digitVal c := by
  rw [digitsVal, List.foldl_append]
  rfl

theorem digitsVal_reverse (cs : List Char) : digitsVal cs.reverse = valRev cs := by
  induction cs with
  | nil => rfl
  | cons c rest ih =>
      rw [List.reverse_cons, digitsVal_append_singleton, ih, valRev,
        Nat.add_comm]

theorem natDigitsRev_ne_nil {n : Nat} (h : 1 ≤ n) : natDigitsRev n ≠ [] := by
  unfold natDigitsRev
  match n, h with
  | m + 1, _ => exact fun hc => List.cons_ne_nil _ _ hc

theorem digitsVal_natDigitsStr (n : Nat) : digitsVal (natDigitsStr n) = n := by
  unfold natDigitsStr
  by_cases h0 : n = 0
  · rw [if_pos h0, h0]; rfl
  · rw [if_neg h0, digitsVal_reverse]
    exact valRev_natDigitsRevAux n n (Nat.le_refl n)

theorem groupRev_mem : ∀ (l : List Char), ∀ x ∈ groupRev l, x ∈ l ∨ x = '.' := by
  intro l
  induction l using groupRev.induct with
  | case1 => intro x hx; exact Or.inl hx
  | case2 a => intro x hx; exact Or.inl hx
  | case3 a b => intro x hx; exact Or.inl hx
  | case4 a b c => intro x hx; exact Or.inl hx
  | case5 a b c d rest ih =>
      intro x hx
      rw [groupRev] at hx
      simp only [List.mem_cons] at hx
      rcases hx with rfl | rfl | rfl | rfl | hx
      · exact Or.inl (by simp)
      · exact Or.inl (by simp)
      · exact Or.inl (by simp)
      · exact Or.inr rfl
      · rcases ih x hx with h2 | h2
        · exact Or.inl (List.mem_cons_of_mem _ (List.mem_cons_of_mem _
            (List.mem_cons_of_mem _ h2)))
        · exact Or.inr h2

theorem groupRev_filter_dot : ∀ (l : List Char), (∀ c ∈ l, c ≠ '.') →
    (groupRev l).filter (fun a => a ≠ '.') = l := by
  intro l
  induction l using groupRev.induct with
  | case1 => intro _; rfl
  | case2 a =>
      intro h
      simp [groupRev, List.filter_cons, h a (by simp)]
  | case3 a b =>
      intro h
      simp [groupRev, List.filter_cons, h a (by simp), h b (by simp)]
  | case4 a b c =>
      intro h
      simp [groupRev, List.filter_cons, h a (by simp), h b (by simp), h c (by simp)]
  | case5 a b c d rest ih =>
      intro h
      have hrest : ∀ x ∈ d :: rest, x ≠ '.' := by
        intro x hx
        refine h x ?_
        rcases List.mem_cons.mp hx with rfl | hx
        · simp
        · simp [hx]
      rw [groupRev]
      simp [List.filter_cons, h a (by simp), h b (by simp), h c (by simp)]
      simpa using ih hrest

theorem digitChar_props (d : Nat) :
    digitChar d ≠ '.' ∧ digitChar d ≠ ',' ∧ digitChar d ≠ '€' ∧
      (digitChar d).isWhitespace = false := by
  unfold digitChar
  split <;> refine ⟨by decide, by decide, by decide, by decide⟩

theorem natDigitsStr_facts {n : Nat} {x : Char} (h : x ∈ natDigitsStr n) :
    x.isDigit = true ∧ x ≠ '.' ∧ x ≠ ',' ∧ x ≠ '€' ∧ x.isWhitespace = false := by
  obtain ⟨d, hd, rfl⟩ := mem_natDigitsStr h
  obtain ⟨h1, h2, h3, h4⟩ := digitChar_props d
  exact ⟨digitChar_isDigit hd, h1, h2, h3, h4⟩

theorem mem_formatThousands {n : Nat} {x : Char}
    (h : x ∈ (formatThousands n).data) : x ∈ natDigitsStr n ∨ x = '.' := by
  unfold formatThousands at h
  have h2 := List.mem_reverse.mp h
  rcases groupRev_mem _ x h2 with h3 | h3
  · exact Or.inl (List.mem_reverse.mp h3)
  · exact Or.inr h3

theorem formatThousands_facts {n : Nat} {x : Char}
    (h : x ∈ (formatThousands n).data) :
    x ≠ '€' ∧ x.isWhitespace = false := by
  rcases mem_formatThousands h with h2 | rfl
  · obtain ⟨_, _, _, h4, h5⟩ := natDigitsStr_facts h2
    exact ⟨h4, h5⟩
  · exact ⟨by decide, by decide⟩

theorem dropWhile_eq_self_of_all {p : Char → Bool} :
    ∀ {l : List Char}, (∀ c ∈ l, p c = false) → l.dropWhile p = l := by
  intro l h
  cases l with
  | nil => rfl
  | cons c cs =>
      rw [List.dropWhile_cons, h c (List.mem_cons_self c cs)]
      simp

theorem pyStrip_eq_self {l : List Char} (h : ∀ c ∈ l, c.isWhitespace = false) :
    pyStrip ⟨l⟩ = ⟨l⟩ := by
  unfold pyStrip
  show (⟨((l.dropWhile Char.isWhitespace).reverse.dropWhile
    Char.isWhitespace).reverse⟩ : String) = ⟨l⟩
  rw [dropWhile_eq_self_of_all h,
    dropWhile_eq_self_of_all (fun c hc => h c (List.mem_reverse.mp hc)),
    List.reverse_reverse]

theorem splitOnDot_no_dot : ∀ (l : List Char), (∀ c ∈ l, c ≠ '.') →
    splitOnDot l = [l] := by
  intro l
  induction l with
  | nil => intro _; rfl
  | cons c cs ih =>
      intro h
      rw [splitOnDot, if_neg (h c (List.mem_cons_self c cs)),
        ih (fun x hx => h x (List.mem_cons_of_mem _ hx))]

theorem pyFloatOfString_single {s : String} {a : List Char}
    (h : splitOnDot (pyStrip s).data = [a]) :
    pyFloatOfString s
      = if a ≠ [] ∧ a.all Char.isDigit then some ((digitsVal a : Nat) : Rat)
        else none := by
  unfold pyFloatOfString
  rw [h]

theorem pyFloatOfString_pair {s : String} {a b : List Char}
    (h : splitOnDot (pyStrip s).data = [a, b]) :
    pyFloatOfString s
      = if (a ≠ [] ∨ b ≠ []) ∧ a.all Char.isDigit ∧ b.all Char.isDigit then
          some ((digitsVal a : Rat) + (digitsVal b : Rat) / ((10 : Rat) ^ b.length))
        else none := by
  unfold pyFloatOfString
  rw [h]

theorem formatEuro_ne_empty (n : Nat) : formatEuro n ≠ "" := by
  intro h
  have := congrArg String.data h
  simp [formatEuro] at this

/-- Round trip of the formatter and the parser: parsing a formatted price
recovers the integer exactly. -/
theorem parse_formatEuro (n : Nat) : parse_price_to_number (formatEuro n) = some (n : Rat) := by
  rw [parse_price_to_number, if_neg (formatEuro_ne_empty n)]
  have h1 : removeChar '€' (formatEuro n) = ⟨(formatThousands n).data⟩ := by
    unfold removeChar formatEuro
    congr 1
    show List.filter (fun a => a ≠ '€') ('€' :: (formatThousands n).data)
      = (formatThousands n).data
    rw [List.filter_cons, if_neg (by simp)]
    exact List.filter_eq_self.mpr (fun a ha => by
      simpa using (formatThousands_facts ha).1)
  have h2 : pyStrip ⟨(formatThousands n).data⟩ = ⟨(formatThousands n).data⟩ :=
    pyStrip_eq_self (fun c hc => (formatThousands_facts hc).2)
  have h3 : removeChar '.' ⟨(formatThousands n).data⟩ = ⟨natDigitsStr n⟩ := by
    unfold removeChar
    show (⟨List.filter (fun a => a ≠ '.') (formatThousands n).data⟩ : String) = _
    unfold formatThousands
    show (⟨List.filter (fun a => a ≠ '.')
      (groupRev (natDigitsStr n).reverse).reverse⟩ : String) = _
    rw [List.filter_reverse,
      groupRev_filter_dot _ (fun c hc => (natDigitsStr_facts (List.mem_reverse.mp hc)).2.1),
      List.reverse_reverse]
  have h4 : commaToDot ⟨natDigitsStr n⟩ = ⟨natDigitsStr n⟩ := by
    unfold commaToDot
    congr 1
    show List.map (fun a => if a = ',' then '.' else a) (natDigitsStr n) = natDigitsStr n
    have hmap : List.map (fun a => if a = ',' then '.' else a) (natDigitsStr n)
        = List.map id (natDigitsStr n) :=
      List.map_congr_left (fun a ha => by
        rw [if_neg (natDigitsStr_facts ha).2.2.1]; rfl)
    rw [hmap, List.map_id]
  have h5 : pyFloatOfString ⟨natDigitsStr n⟩ = some ((n : Nat) : Rat) := by
    have hstrip : pyStrip ⟨natDigitsStr n⟩ = ⟨natDigitsStr n⟩ :=
      pyStrip_eq_self (fun c hc => (natDigitsStr_facts hc).2.2.2.2)
    have hsplit : splitOnDot (pyStrip ⟨natDigitsStr n⟩).data = [natDigitsStr n] := by
      rw [hstrip]
      exact splitOnDot_no_dot _ (fun c hc => (natDigitsStr_facts hc).2.1)
    rw [pyFloatOfString_single hsplit, if_pos, digitsVal_natDigitsStr]
    constructor
    · unfold natDigitsStr
      by_cases h0 : n = 0
      · rw [if_pos h0]; simp
      · rw [if_neg h0]
        simpa using natDigitsRev_ne_nil (Nat.one_le_iff_ne_zero.mpr h0)
    · exact List.all_eq_true.mpr (fun c hc => (natDigitsStr_facts hc).1)
  rw [h1, h2, h3, h4, h5]

/-- One step of the `extract_price` pattern loop: a successful capture always
formats `int(x)` for some parsed `x > 100`. -/
theorem priceFromCapture_some {cap s : String} (h : priceFromCapture cap = some s) :
    ∃ n : Nat, 100 ≤ n ∧ s = formatEuro n := by
  simp only [priceFromCapture] at h
  cases hpf : pyFloatOfString
      (if (removeChar '.' cap).data.contains ',' then commaToDot (removeChar '.' cap)
        else removeChar '.' cap) with
  | none => rw [hpf] at h; exact absurd h (by simp)
  | some x =>
      rw [hpf] at h
      have hred : (match some x with
          | none => none
          | some x => if 100 < x then some (formatEuro x.floor.toNat) else none)
        = if 100 < x then some (formatEuro x.floor.toNat) else none := rfl
      rw [hred] at h
      by_cases h100 : 100 < x
      · rw [if_pos h100] at h
        refine ⟨x.floor.toNat, ?_, (Option.some.inj h).symm⟩
        have hfloor : (100 : Int) ≤ x.floor :=
          Rat.le_floor.mpr (by exact_mod_cast le_of_lt h100)
        exact (Int.le_toNat (le_trans (by norm_num) hfloor)).mpr hfloor
      · rw [if_neg h100] at h
        exact absurd h (by simp)

/-- **C10 (amended)**: whenever `extract_price` returns a non-empty string,
that string is `"€"` followed by an integer **at least** 100 rendered with
`.` as thousands separator, and `parse_price_to_number` maps it back to
exactly that integer (never `None`); prices strictly below 100 are never
returned.  (As stated, with "greater than 100", the claim fails: a captured
price of `100,5` parses to 100.5 > 100 but is truncated to the integer 100 —
see the counterexample.) -/
theorem C10_price_roundtrip (caps : List String) (h : extract_price caps ≠ "") :
    ∃ n : Nat, 100 ≤ n ∧ extract_price caps = formatEuro n ∧
      parse_price_to_number (extract_price caps) = some (n : Rat) := by
  induction caps with
  | nil => exact absurd rfl h
  | cons cap rest ih =>
      cases hc : priceFromCapture cap with
      | none =>
          rw [extract_price, hc] at h ⊢
          exact ih h
      | some s =>
          rw [extract_price, hc] at h ⊢
          obtain ⟨n, hn, rfl⟩ := priceFromCapture_some hc
          exact ⟨n, hn, rfl, parse_formatEuro n⟩

theorem rat_floor_eq_intFloor (q : Rat) : q.floor = ⌊q⌋ :=
  (Rat.floor_def' q).trans Rat.floor_def.symm

/-- Counterexample to **C10** as stated: on a page reading
`"Kaufpreis: 100,5 €"` the second regex pattern captures `100,5`, which parses
to 100.5 > 100, passes the plausibility check, and is truncated by `int()` to
the integer 100 — so `extract_price` returns `"€100"`, whose numeric value is
**not** greater than 100. -/
theorem C10_price_counterexample :
    extract_price ["100,5"] = formatEuro 100 ∧
    formatEuro 100 = "€100" ∧
    parse_price_to_number (extract_price ["100,5"]) = some ((100 : Nat) : Rat) ∧
    ¬(100 : Nat) > 100 := by
  have harg : (if (removeChar '.' "100,5").data.contains ','
      then commaToDot (removeChar '.' "100,5") else removeChar '.' "100,5")
      = "100.5" := by decide
  have hsp : splitOnDot (pyStrip "100.5").data = [['1', '0', '0'], ['5']] := by decide
  have hval : pyFloatOfString "100.5"
      = some ((digitsVal ['1', '0', '0'] : Rat)
          + (digitsVal ['5'] : Rat) / (10 : Rat) ^ (['5'] : List Char).length) := by
    rw [pyFloatOfString_pair hsp, if_pos]
    exact ⟨Or.inl (by decide), by decide, by decide⟩
  have hd1 : digitsVal ['1', '0', '0'] = 100 := by decide
  have hd2 : digitsVal ['5'] = 5 := by decide
  have hlen : (['5'] : List Char).length = 1 := rfl
  set q : Rat := (digitsVal ['1', '0', '0'] : Rat)
    + (digitsVal ['5'] : Rat) / (10 : Rat) ^ (['5'] : List Char).length with hqdef
  have hq : q = (100 : Rat) + (5 : Rat) / 10 := by
    rw [hqdef, hd1, hd2, hlen]
    push_cast
    norm_num
  have h100lt : (100 : Rat) < q := by
    rw [hq]; norm_num
  have hfloor : q.floor = 100 := by
    rw [rat_floor_eq_intFloor, hq, Int.floor_eq_iff]
    constructor
    · push_cast; norm_num
    · push_cast; norm_num
  have hpc : priceFromCapture "100,5" = some (formatEuro 100) := by
    simp only [priceFromCapture]
    rw [harg, hval]
    show (if 100 < q then some (formatEuro q.floor.toNat) else none)
      = some (formatEuro 100)
    rw [if_pos h100lt, hfloor]
    rfl
  refine ⟨?_, by decide, ?_, by decide⟩
  · rw [extract_price, hpc]
  · rw [extract_price, hpc]
    exact parse_formatEuro 100

/-- Witness for the amended C10: the capture `184.500` yields `€184.500`,
which parses back to 184500. -/
theorem C10_price_roundtrip_witness :
    extract_price ["184.500"] ≠ "" ∧
    ∃ n : Nat, 100 ≤ n ∧ extract_price ["184.500"] = formatEuro n ∧
      parse_price_to_number (extract_price ["184.500"]) = some (n : Rat) :=
  ⟨by decide, C10_price_roundtrip ["184.500"] (by decide)⟩

/-! ### Claim C5: idempotence of reconciliation

Machinery: the state of a patched row, key preservation, and the closed form
of applying a whole reconciliation result. -/

theorem nodup_keys_diffFields {f fields : Record}
    (h : (fields.map Prod.fst).Nodup) :
    ((diffFields f fields).map Prod.fst).Nodup :=
  h.sublist ((List.filter_sublist fields).map Prod.fst)

theorem alGet_applyPatch {diff : Record} (hnd : (diff.map Prod.fst).Nodup)
    (g : Record) (fld : String) :
    alGet (applyPatch g diff) fld
      = match alGet diff fld with
        | some v => some v
        | none => alGet g fld := by
  induction diff generalizing g with
  | nil => rfl
  | cons p rest ih =>
      simp only [List.map_cons, List.nodup_cons] at hnd
      have hstep : applyPatch g (p :: rest) = applyPatch (setField g p.1 p.2) rest := rfl
      rw [hstep, ih hnd.2]
      by_cases hk : fld = p.1
      · subst hk
        have hrest : alGet rest p.1 = none := alGet_eq_none.mpr hnd.1
        have hcons : alGet (p :: rest) p.1 = some p.2 := by simp [alGet]
        rw [hrest, hcons]
        show alGet (setField g p.1 p.2) p.1 = some p.2
        exact alGet_dictInsert_self _ _ _
      · have hcons : alGet (p :: rest) fld = alGet rest fld := by simp [alGet, hk]
        rw [hcons]
        cases alGet rest fld with
        | some v => rfl
        | none =>
            show alGet (setField g p.1 p.2) fld = alGet g fld
            exact alGet_dictInsert_ne _ hk _

/-- The per-field state of a row after merging the desired `fields` over the
old row `f`: desired fields win, all other fields keep their old value. -/
def MergedGet (f fields f' : Record) : Prop :=
  ∀ fld, alGet f' fld
    = match alGet fields fld with
      | some v => some v
      | none => alGet f fld

theorem mergedGet_of_diff_nil {f fields : Record}
    (h : diffFields f fields = []) : MergedGet f fields f := by
  intro fld
  cases hf : alGet fields fld with
  | none => rfl
  | some v =>
      have hmem : (fld, v) ∈ fields := mem_of_alGet_eq_some hf
      exact (diffFields_eq_nil.mp h (fld, v) hmem)

theorem mergedGet_base {f fields : Record} (hfnd : (fields.map Prod.fst).Nodup) :
    MergedGet f fields (applyPatch f (diffFields f fields)) := by
  intro fld
  rw [alGet_applyPatch (nodup_keys_diffFields hfnd)]
  cases hd : alGet (diffFields f fields) fld with
  | some v =>
      have hmem := mem_of_alGet_eq_some hd
      rw [alGet_eq_some_of_mem hfnd (mem_diffFields.mp hmem).1]
  | none =>
      cases hf : alGet fields fld with
      | none => rfl
      | some v =>
          have hmem : (fld, v) ∈ fields := mem_of_alGet_eq_some hf
          by_cases hne : alGet f fld = some v
          · exact hne
          · exact absurd
              (alGet_eq_some_of_mem (nodup_keys_diffFields hfnd)
                (mem_diffFields.mpr ⟨hmem, hne⟩))
              (by rw [hd]; exact fun hc => Option.noConfusion hc)

theorem mergedGet_step {f fields g : Record} (hfnd : (fields.map Prod.fst).Nodup)
    (hg : MergedGet f fields g) :
    MergedGet f fields (applyPatch g (diffFields f fields)) := by
  intro fld
  rw [alGet_applyPatch (nodup_keys_diffFields hfnd)]
  cases hd : alGet (diffFields f fields) fld with
  | some v =>
      have hmem := mem_of_alGet_eq_some hd
      rw [alGet_eq_some_of_mem hfnd (mem_diffFields.mp hmem).1]
  | none => exact hg fld

theorem mergedGet_foldl {f fields : Record} (hfnd : (fields.map Prod.fst).Nodup) :
    ∀ (l : List UpdateOp), (∀ u ∈ l, u.fields = diffFields f fields) →
    ∀ (g : Record), MergedGet f fields g →
    MergedGet f fields (l.foldl (fun g u => applyPatch g u.fields) g) := by
  intro l
  induction l with
  | nil => intro _ g hg; exact hg
  | cons u rest ih =>
      intro hall g hg
      rw [List.foldl_cons]
      refine ih (fun u' hu' => hall u' (List.mem_cons_of_mem _ hu')) _ ?_
      rw [hall u (List.mem_cons_self u rest)]
      exact mergedGet_step hfnd hg

theorem mergedGet_patch_list {f fields : Record}
    (hfnd : (fields.map Prod.fst).Nodup) (l : List UpdateOp)
    (hall : ∀ u ∈ l, u.fields = diffFields f fields) (hne : l ≠ []) :
    MergedGet f fields (l.foldl (fun g u => applyPatch g u.fields) f) := by
  cases l with
  | nil => exact absurd rfl hne
  | cons u rest =>
      rw [List.foldl_cons]
      refine mergedGet_foldl hfnd rest
        (fun u' hu' => hall u' (List.mem_cons_of_mem _ hu')) _ ?_
      rw [hall u (List.mem_cons_self u rest)]
      exact mergedGet_base hfnd

theorem toUpdate_fields_ne_nil {d : List (Key × Record)}
    {e : List (Key × (String × Record))} {u : UpdateOp}
    (hu : u ∈ (reconcileCore d e).toUpdate) : u.fields ≠ [] := by
  rw [reconcileCore_toUpdate] at hu
  obtain ⟨p, _, hupd⟩ := List.mem_filterMap.mp hu
  cases hget : alGet e p.1 with
  | none => simp [updateFor, hget] at hupd
  | some pr =>
      obtain ⟨recId, old⟩ := pr
      by_cases hdiff : diffFields old p.2 = []
      · simp [updateFor, hget, hdiff] at hupd
      · simp only [updateFor, hget, if_neg hdiff, Option.some.injEq] at hupd
        subst hupd
        exact hdiff

theorem buildExisting_aux (remote : List (String × Record)) :
    ∀ (m : List (Key × (String × Record))),
      (remote.map (fun row => unique_key row.2)).Nodup →
      (∀ row ∈ remote, unique_key row.2 ∉ m.map Prod.fst) →
      remote.foldl (fun m row => dictInsert (unique_key row.2) row m) m
        = m ++ remote.map (fun row => (unique_key row.2, row)) := by
  induction remote with
  | nil => intro m _ _; simp
  | cons row rest ih =>
      intro m hnd hnotin
      simp only [List.map_cons, List.nodup_cons] at hnd
      rw [List.foldl_cons,
        dictInsert_of_not_mem (hnotin row (List.mem_cons_self row rest)) row,
        ih _ hnd.2 ?_]
      · simp
      · intro row' hrow'
        simp only [List.map_append, List.mem_append]
        rintro (h1 | h1)
        · exact hnotin row' (List.mem_cons_of_mem _ hrow') h1
        · simp only [List.map_cons, List.map_nil, List.mem_singleton] at h1
          exact hnd.1 (h1 ▸ List.mem_map_of_mem (fun row => unique_key row.2) hrow')

theorem buildExisting_eq_map {remote : List (String × Record)}
    (h : (remote.map (fun row => unique_key row.2)).Nodup) :
    buildExisting remote = remote.map (fun row => (unique_key row.2, row)) := by
  have := buildExisting_aux remote [] h (by simp)
  simpa [buildExisting] using this

theorem canonicalize_perm (fields : Record) : (canonicalize fields).Perm fields :=
  List.perm_insertionSort _ fields

theorem pyGetStrOr_ne_empty {f : Record} {name : String}
    (h : pyGetStrOr f name ≠ "") :
    alGet f name = some (Value.str (pyGetStrOr f name)) := by
  unfold pyGetStrOr at h ⊢
  cases halg : alGet f name with
  | none =>
      rw [halg] at h
      exact absurd rfl h
  | some v =>
      rw [halg] at h
      cases v with
      | str s => rfl
      | num q => exact absurd rfl h

theorem unique_key_intro_obj {f : Record}
    (h : pyStrip (pyGetStrOr f "Objektnummer") ≠ "") :
    unique_key f = Key.obj (pyStrip (pyGetStrOr f "Objektnummer")) := by
  simp [unique_key, h]

theorem unique_key_intro_url {f : Record}
    (h1 : pyStrip (pyGetStrOr f "Objektnummer") = "")
    (h2 : pyStrip (pyGetStrOr f "Webseite") ≠ "") :
    unique_key f = Key.url (pyStrip (pyGetStrOr f "Webseite")) := by
  simp [unique_key, h1, h2]

theorem unique_key_intro_hash {f : Record}
    (h1 : pyStrip (pyGetStrOr f "Objektnummer") = "")
    (h2 : pyStrip (pyGetStrOr f "Webseite") = "") :
    unique_key f = Key.hash (canonicalize f) := by
  simp [unique_key, h1, h2]

theorem unique_key_eq_obj {f : Record} {o : String}
    (h : unique_key f = Key.obj o) :
    pyStrip (pyGetStrOr f "Objektnummer") = o ∧ o ≠ "" := by
  by_cases h1 : pyStrip (pyGetStrOr f "Objektnummer") ≠ ""
  · rw [unique_key_intro_obj h1] at h
    injection h with h2
    exact ⟨h2, h2 ▸ h1⟩
  · push_neg at h1
    by_cases h2 : pyStrip (pyGetStrOr f "Webseite") ≠ ""
    · rw [unique_key_intro_url h1 h2] at h
      exact absurd h (by simp)
    · push_neg at h2
      rw [unique_key_intro_hash h1 h2] at h
      exact absurd h (by simp)

theorem unique_key_eq_url {f : Record} {u : String}
    (h : unique_key f = Key.url u) :
    pyStrip (pyGetStrOr f "Objektnummer") = "" ∧
      pyStrip (pyGetStrOr f "Webseite") = u ∧ u ≠ "" := by
  by_cases h1 : pyStrip (pyGetStrOr f "Objektnummer") ≠ ""
  · rw [unique_key_intro_obj h1] at h
    exact absurd h (by simp)
  · push_neg at h1
    by_cases h2 : pyStrip (pyGetStrOr f "Webseite") ≠ ""
    · rw [unique_key_intro_url h1 h2] at h
      injection h with h3
      exact ⟨h1, h3, h3 ▸ h2⟩
    · push_neg at h2
      rw [unique_key_intro_hash h1 h2] at h
      exact absurd h (by simp)

theorem unique_key_eq_hash {f : Record} {c : Record}
    (h : unique_key f = Key.hash c) :
    pyStrip (pyGetStrOr f "Objektnummer") = "" ∧
      pyStrip (pyGetStrOr f "Webseite") = "" ∧ canonicalize f = c := by
  by_cases h1 : pyStrip (pyGetStrOr f "Objektnummer") ≠ ""
  · rw [unique_key_intro_obj h1] at h
    exact absurd h (by simp)
  · push_neg at h1
    by_cases h2 : pyStrip (pyGetStrOr f "Webseite") ≠ ""
    · rw [unique_key_intro_url h1 h2] at h
      exact absurd h (by simp)
    · push_neg at h2
      rw [unique_key_intro_hash h1 h2] at h
      injection h with h3
      exact ⟨h1, h2, h3⟩

theorem diff_nil_of_hash {f fields c : Record}
    (hf : unique_key f = Key.hash c) (hfields : unique_key fields = Key.hash c)
    (hfnd : (f.map Prod.fst).Nodup) (hfieldsnd : (fields.map Prod.fst).Nodup) :
    diffFields f fields = [] := by
  obtain ⟨_, _, hcf⟩ := unique_key_eq_hash hf
  obtain ⟨_, _, hcfields⟩ := unique_key_eq_hash hfields
  have hc : canonicalize f = canonicalize fields := hcf.trans hcfields.symm
  have hperm : f.Perm fields :=
    (canonicalize_perm f).symm.trans (hc ▸ canonicalize_perm fields)
  refine diffFields_eq_nil.mpr ?_
  intro p hp
  rw [alGet_eq_of_perm hperm hfnd p.1]
  exact alGet_eq_some_of_mem hfieldsnd hp

theorem pyGetStrOr_merged {f fields f' : Record} (hmg : MergedGet f fields f')
    (name : String) :
    pyGetStrOr f' name = pyGetStrOr fields name ∨
      (alGet fields name = none ∧ pyGetStrOr f' name = pyGetStrOr f name) := by
  cases halg : alGet fields name with
  | some v =>
      left
      have h1 : alGet f' name = some v := by rw [hmg name, halg]
      unfold pyGetStrOr
      rw [h1, halg]
  | none =>
      right
      have h1 : alGet f' name = alGet f name := by rw [hmg name, halg]
      exact ⟨rfl, by unfold pyGetStrOr; rw [h1]⟩

theorem unique_key_of_mergedGet {f fields f' : Record} {k : Key}
    (hf : unique_key f = k) (hfields : unique_key fields = k)
    (hmg : MergedGet f fields f') (hk : ∀ c, k ≠ Key.hash c) :
    unique_key f' = k := by
  cases k with
  | hash c => exact absurd rfl (hk c)
  | obj o =>
      obtain ⟨ho, hone⟩ := unique_key_eq_obj hfields
      have hs : pyGetStrOr fields "Objektnummer" ≠ "" := by
        intro hc
        rw [hc] at ho
        exact hone (ho.symm.trans rfl)
      rcases pyGetStrOr_merged hmg "Objektnummer" with hh | ⟨hnone, _⟩
      · rw [unique_key_intro_obj (by rw [hh, ho]; exact hone), hh, ho]
      · have := pyGetStrOr_ne_empty hs
        rw [hnone] at this
        exact absurd this (by simp)
  | url u =>
      obtain ⟨hobj0, hw, hwne⟩ := unique_key_eq_url hfields
      obtain ⟨hobj0f, _, _⟩ := unique_key_eq_url hf
      have hobj' : pyStrip (pyGetStrOr f' "Objektnummer") = "" := by
        rcases pyGetStrOr_merged hmg "Objektnummer" with hh | ⟨_, hh⟩
        · rw [hh]; exact hobj0
        · rw [hh]; exact hobj0f
      have hwne' : pyGetStrOr fields "Webseite" ≠ "" := by
        intro hc
        rw [hc] at hw
        exact hwne (hw.symm.trans rfl)
      rcases pyGetStrOr_merged hmg "Webseite" with hh | ⟨hnone, _⟩
      · rw [unique_key_intro_url hobj' (by rw [hh, hw]; exact hwne), hh, hw]
      · have := pyGetStrOr_ne_empty hwne'
        rw [hnone] at this
        exact absurd this (by simp)

theorem applyUpdates_map (ups : List UpdateOp) (rows : List (String × Record)) :
    applyUpdates ups rows
      = rows.map (fun row => (row.1,
          (ups.filter (fun u => u.id = row.1)).foldl
            (fun g u => applyPatch g u.fields) row.2)) := by
  induction ups generalizing rows with
  | nil => simp [applyUpdates]
  | cons u rest ih =>
      show applyUpdates rest (applyOneUpdate u rows) = _
      rw [ih, applyOneUpdate, List.map_map]
      refine List.map_congr_left ?_
      intro row _
      by_cases hid : row.1 = u.id
      · have hfc : (u :: rest).filter (fun u' => decide (u'.id = row.1))
            = u :: rest.filter (fun u' => decide (u'.id = row.1)) := by
          rw [List.filter_cons, if_pos (by simp [hid])]
        simp only [Function.comp_apply, if_pos hid, hfc, List.foldl_cons]
      · have hfc : (u :: rest).filter (fun u' => decide (u'.id = row.1))
            = rest.filter (fun u' => decide (u'.id = row.1)) := by
          rw [List.filter_cons, if_neg (by simp; exact fun hc => hid hc.symm)]
        simp only [Function.comp_apply, if_neg hid, hfc]

theorem exists_fst_zip_of_mem {α β : Type} {b : β} :
    ∀ {l₁ : List α} {l₂ : List β}, b ∈ l₂ → l₁.length = l₂.length →
      ∃ a, (a, b) ∈ l₁.zip l₂ := by
  intro l₁
  induction l₁ with
  | nil =>
      intro l₂ hb hlen
      cases l₂ with
      | nil => simp at hb
      | cons b' rest => simp at hlen
  | cons a rest ih =>
      intro l₂ hb hlen
      cases l₂ with
      | nil => simp at hb
      | cons b' rest' =>
          rcases List.mem_cons.mp hb with rfl | hb'
          · exact ⟨a, by simp [List.zip_cons_cons]⟩
          · obtain ⟨a', ha'⟩ := ih hb' (by simpa using hlen)
            exact ⟨a', by simp [List.zip_cons_cons, ha']⟩

/-- **C5 (amended)**: reconciliation is idempotent when the whitelist is empty
(sanitisation is the identity, so keys are preserved), the remote rows'
derived keys are pairwise distinct, the remote ids are pairwise distinct,
created rows get fresh ids, and records carry no duplicate field names: if
`D` is the desired map, `E` the existing map, `(ops, dels)` the first
reconciliation, and `remote2` the remote state after applying it, then a
second reconciliation of the same desired map against `remote2` emits no
creates, no updates, and no deletes.  (As universally stated the claim
fails: a non-empty whitelist can change a record's identity key, and remote
rows sharing a derived key leave an undeleted duplicate behind — see the
counterexample.) -/
theorem C5_reconcile_idempotent
    (rows : List Record) (remote : List (String × Record)) (newIds : List String)
    (D : List (Key × Record)) (E : List (Key × (String × Record)))
    (ops : SyncOps) (dels : List String) (remote2 : List (String × Record))
    (hD : D = buildDesired [] rows)
    (hE : E = buildExisting remote)
    (hops : reconcile D E = (ops, dels))
    (hremote2 : remote2 = applyOps remote newIds ops.toCreate ops.toUpdate dels)
    (hrows : ∀ r ∈ rows, (r.map Prod.fst).Nodup)
    (hrfields : ∀ row ∈ remote, (row.2.map Prod.fst).Nodup)
    (hrkeys : (remote.map (fun row => unique_key row.2)).Nodup)
    (hrids : (remote.map Prod.fst).Nodup)
    (hfresh : ∀ i ∈ newIds, i ∉ remote.map Prod.fst)
    (hlen : newIds.length = ops.toCreate.length) :
    (reconcile D (buildExisting remote2)).1.toCreate = [] ∧
    (reconcile D (buildExisting remote2)).1.toUpdate = [] ∧
    (reconcile D (buildExisting remote2)).2 = [] := by
  -- unfold the first run
  have hops1 : ops = reconcileCore D E := by
    have : (reconcile D E).1 = reconcileCore D E := rfl
    rw [hops] at this
    exact this
  have hdels0 : dels = (reconcile D E).2 := by rw [hops]
  -- facts about the desired map
  have hDinv : DesiredInv rows D := by
    rw [hD]
    have := buildDesired_nil_invariant rows [] [] ⟨by simp, by simp, by simp⟩
    simpa [buildDesired] using this
  obtain ⟨hDnd, hDent, _⟩ := hDinv
  -- facts about the existing map
  have hEeq : E = remote.map (fun row => (unique_key row.2, row)) := by
    rw [hE]
    exact buildExisting_eq_map hrkeys
  have hEkeys : E.map Prod.fst = remote.map (fun row => unique_key row.2) := by
    rw [hEeq, List.map_map]
    rfl
  have hEknd : (E.map Prod.fst).Nodup := by
    rw [hEkeys]
    exact hrkeys
  have hEget : ∀ row ∈ remote, alGet E (unique_key row.2) = some row := by
    intro row hrow
    refine alGet_eq_some_of_mem hEknd ?_
    rw [hEeq]
    exact List.mem_map_of_mem _ hrow
  have hEinv : ∀ (k : Key) (row : String × Record), alGet E k = some row →
      row ∈ remote ∧ unique_key row.2 = k := by
    intro k row halg
    have hm := mem_of_alGet_eq_some halg
    rw [hEeq] at hm
    obtain ⟨row', hrow', heq⟩ := List.mem_map.mp hm
    injection heq with h1 h2
    subst h2
    exact ⟨hrow', h1⟩
  -- the update operations of the first run
  have hupd : ∀ u ∈ ops.toUpdate, ∃ (k : Key) (fields : Record) (row : String × Record),
      (k, fields) ∈ D ∧ row ∈ remote ∧ unique_key row.2 = k ∧
      u = UpdateOp.mk row.1 (diffFields row.2 fields) ∧
      diffFields row.2 fields ≠ [] := by
    intro u hu
    rw [hops1, reconcileCore_toUpdate] at hu
    obtain ⟨p, hp, hupdeq⟩ := List.mem_filterMap.mp hu
    cases hget : alGet E p.1 with
    | none => simp [updateFor, hget] at hupdeq
    | some pr =>
        obtain ⟨recId, old⟩ := pr
        by_cases hdiff : diffFields old p.2 = []
        · simp [updateFor, hget, hdiff] at hupdeq
        · simp only [updateFor, hget, if_neg hdiff, Option.some.injEq] at hupdeq
          obtain ⟨hmem, hkey⟩ := hEinv p.1 (recId, old) hget
          exact ⟨p.1, p.2, (recId, old), hp, hmem, hkey, hupdeq.symm, hdiff⟩
  have hupd_unique : ∀ row ∈ remote, ∀ u ∈ ops.toUpdate, u.id = row.1 →
      ∃ fields, alGet D (unique_key row.2) = some fields ∧
        u = UpdateOp.mk row.1 (diffFields row.2 fields) := by
    intro row hrow u hu hid
    obtain ⟨k, fields, row', hkf, hrow', hkey', hueq, _⟩ := hupd u hu
    have hre : row' = row := by
      refine List.inj_on_of_nodup_map hrids hrow' hrow ?_
      rw [← hid, hueq]
    subst hre
    refine ⟨fields, ?_, hueq⟩
    rw [hkey']
    exact alGet_eq_some_of_mem hDnd hkf
  -- the delete list of the first run
  have hdels : dels = (remote.filter
      (fun row => decide (unique_key row.2 ∉ D.map Prod.fst))).map Prod.fst := by
    rw [hdels0]
    show (E.filter (fun p => decide (p.1 ∉ (reconcileCore D E).keep))).map
        (fun p => p.2.1) = _
    have hcongr : E.filter (fun p => decide (p.1 ∉ (reconcileCore D E).keep))
        = E.filter (fun p => decide (p.1 ∉ D.map Prod.fst)) := by
      refine List.filter_congr ?_
      intro p hp
      have hpe : p.1 ∈ E.map Prod.fst := List.mem_map_of_mem Prod.fst hp
      by_cases hd : p.1 ∈ D.map Prod.fst
      · simp [mem_keep_iff, hd, hpe]
      · simp [mem_keep_iff, hd, hpe]
    rw [hcongr, hEeq, List.filter_map, List.map_map]
    rfl
  have hdels_mem : ∀ i, i ∈ dels ↔
      ∃ row, row ∈ remote ∧ row.1 = i ∧ unique_key row.2 ∉ D.map Prod.fst := by
    intro i
    rw [hdels]
    constructor
    · intro h
      obtain ⟨row, hrow, rfl⟩ := List.mem_map.mp h
      have hm := List.mem_filter.mp hrow
      exact ⟨row, hm.1, rfl, by simpa using hm.2⟩
    · rintro ⟨row, hrow, rfl, hnot⟩
      exact List.mem_map_of_mem Prod.fst (List.mem_filter.mpr ⟨hrow, by simpa using hnot⟩)
  have hdels_sub : ∀ i ∈ dels, i ∈ remote.map Prod.fst := by
    intro i hi
    obtain ⟨row, hrow, rfl, _⟩ := (hdels_mem i).mp hi
    exact List.mem_map_of_mem Prod.fst hrow
  have hsurvive : ∀ row ∈ remote, unique_key row.2 ∈ D.map Prod.fst →
      row.1 ∉ dels := by
    intro row hrow hkd hdel
    obtain ⟨row', hrow', heq, hnot⟩ := (hdels_mem row.1).mp hdel
    have : row' = row := List.inj_on_of_nodup_map hrids hrow' hrow heq
    subst this
    exact hnot hkd
  have hdead : ∀ row ∈ remote, unique_key row.2 ∉ D.map Prod.fst → row.1 ∈ dels := by
    intro row hrow h
    exact (hdels_mem row.1).mpr ⟨row, hrow, rfl, h⟩
  -- final state of each surviving remote row
  have hrow_final : ∀ row ∈ remote, ∀ fields, alGet D (unique_key row.2) = some fields →
      MergedGet row.2 fields
        ((ops.toUpdate.filter (fun u => u.id = row.1)).foldl
          (fun g u => applyPatch g u.fields) row.2) ∧
      unique_key ((ops.toUpdate.filter (fun u => u.id = row.1)).foldl
          (fun g u => applyPatch g u.fields) row.2) = unique_key row.2 := by
    intro row hrow fields hfields
    obtain ⟨rid, rf⟩ := row
    have hkD : (unique_key rf, fields) ∈ D := mem_of_alGet_eq_some hfields
    have hfieldsrow : fields ∈ rows := (hDent _ hkD).1
    have hfieldskey : unique_key fields = unique_key rf := (hDent _ hkD).2.1
    have hfieldsnd := hrows fields hfieldsrow
    have hrownd := hrfields (rid, rf) hrow
    have hall : ∀ u ∈ ops.toUpdate.filter (fun u => u.id = rid),
        u = UpdateOp.mk rid (diffFields rf fields) := by
      intro u hu
      have hm := List.mem_filter.mp hu
      obtain ⟨fields', hf', hueq⟩ := hupd_unique (rid, rf) hrow u hm.1 (by simpa using hm.2)
      rw [hfields] at hf'
      injection hf' with hf'
      rw [hueq, hf']
    by_cases hdiff : diffFields rf fields = []
    · have hfilter : ops.toUpdate.filter (fun u => u.id = rid) = [] := by
        rw [List.filter_eq_nil_iff]
        intro u hu hdec
        have hueq := hall u (List.mem_filter.mpr ⟨hu, hdec⟩)
        have hne : u.fields ≠ [] := by
          rw [hops1] at hu
          exact toUpdate_fields_ne_nil hu
        rw [hueq] at hne
        exact hne hdiff
      rw [hfilter]
      exact ⟨mergedGet_of_diff_nil hdiff, rfl⟩
    · have hu0 : UpdateOp.mk rid (diffFields rf fields) ∈ ops.toUpdate := by
        rw [hops1, reconcileCore_toUpdate]
        refine List.mem_filterMap.mpr ⟨(unique_key rf, fields), hkD, ?_⟩
        have hget : alGet E (unique_key rf) = some (rid, rf) := hEget (rid, rf) hrow
        simp [updateFor, hget, hdiff]
      have hfmem : UpdateOp.mk rid (diffFields rf fields)
          ∈ ops.toUpdate.filter (fun u => u.id = rid) :=
        List.mem_filter.mpr ⟨hu0, by simp⟩
      have hfil_ne : ops.toUpdate.filter (fun u => u.id = rid) ≠ [] := by
        intro hc
        rw [hc] at hfmem
        simp at hfmem
      have hmg := mergedGet_patch_list hfieldsnd _
        (fun u hu => by rw [hall u hu]) hfil_ne
      refine ⟨hmg, ?_⟩
      cases hkcase : unique_key rf with
      | hash c =>
          exact absurd (diff_nil_of_hash hkcase (hfieldskey.trans hkcase)
            hrownd hfieldsnd) hdiff
      | obj o =>
          exact unique_key_of_mergedGet hkcase (hfieldskey.trans hkcase) hmg
            (fun c => by simp)
      | url u =>
          exact unique_key_of_mergedGet hkcase (hfieldskey.trans hkcase) hmg
            (fun c => by simp)
  -- closed form of the applied state
  have hremote2_eq : remote2
      = (remote.filter (fun row => decide (unique_key row.2 ∈ D.map Prod.fst))).map
          (fun row => (row.1,
            (ops.toUpdate.filter (fun u => u.id = row.1)).foldl
              (fun g u => applyPatch g u.fields) row.2))
        ++ newIds.zip ops.toCreate := by
    rw [hremote2]
    show (applyUpdates ops.toUpdate (remote ++ newIds.zip ops.toCreate)).filter
        (fun row => decide (row.1 ∉ dels)) = _
    rw [applyUpdates_map, List.map_append, List.filter_append]
    have hnotouch : ∀ pr ∈ newIds.zip ops.toCreate,
        ops.toUpdate.filter (fun u => u.id = pr.1) = [] := by
      intro pr hpr
      rw [List.filter_eq_nil_iff]
      intro u hu hdec
      obtain ⟨k, fields, row', _, hrow', _, hueq, _⟩ := hupd u hu
      have h1 : u.id = pr.1 := by simpa using hdec
      have h2 : u.id = row'.1 := by rw [hueq]
      have hmem : pr.1 ∈ remote.map Prod.fst := by
        rw [← h1, h2]
        exact List.mem_map_of_mem Prod.fst hrow'
      exact hfresh pr.1 (List.of_mem_zip hpr).1 hmem
    have hnodel : ∀ pr ∈ newIds.zip ops.toCreate, pr.1 ∉ dels := by
      intro pr hpr hdel
      exact hfresh pr.1 (List.of_mem_zip hpr).1 (hdels_sub _ hdel)
    congr 1
    · rw [List.filter_map]
      refine congrArg _ (List.filter_congr ?_)
      intro row hrow
      show decide (row.1 ∉ dels) = decide (unique_key row.2 ∈ D.map Prod.fst)
      by_cases hk : unique_key row.2 ∈ D.map Prod.fst
      · simp [hk, hsurvive row hrow hk]
      · simp [hk, hdead row hrow hk]
    · have hfun : ∀ pr ∈ newIds.zip ops.toCreate,
          (pr.1, (ops.toUpdate.filter (fun u => u.id = pr.1)).foldl
            (fun g u => applyPatch g u.fields) pr.2) = pr := by
        intro pr hpr
        rw [hnotouch pr hpr]
        exact Prod.mk.eta
      rw [show ((newIds.zip ops.toCreate).map
          (fun row => (row.1, (ops.toUpdate.filter (fun u => u.id = row.1)).foldl
            (fun g u => applyPatch g u.fields) row.2)))
          = newIds.zip ops.toCreate from
        (List.map_congr_left hfun).trans (List.map_id _)]
      refine List.filter_eq_self.mpr ?_
      intro pr hpr
      simpa using hnodel pr hpr
  -- keys of the applied state
  have hcreates : ops.toCreate = (D.filter (fun p => (alGet E p.1).isNone)).map Prod.snd := by
    rw [hops1, reconcileCore_toCreate]
  have hzipkeys : (newIds.zip ops.toCreate).map (fun row => unique_key row.2)
      = (D.filter (fun p => (alGet E p.1).isNone)).map Prod.fst := by
    have h1 : (newIds.zip ops.toCreate).map (fun row => unique_key row.2)
        = ((newIds.zip ops.toCreate).map Prod.snd).map unique_key := by
      rw [List.map_map]
      rfl
    rw [h1, List.map_snd_zip _ _ (le_of_eq hlen.symm), hcreates, List.map_map]
    refine List.map_congr_left ?_
    intro q hq
    exact (hDent q (List.mem_filter.mp hq).1).2.1
  have hsurvkeys : ((remote.filter
        (fun row => decide (unique_key row.2 ∈ D.map Prod.fst))).map
          (fun row => (row.1,
            (ops.toUpdate.filter (fun u => u.id = row.1)).foldl
              (fun g u => applyPatch g u.fields) row.2))).map
        (fun row => unique_key row.2)
      = (remote.filter (fun row => decide (unique_key row.2 ∈ D.map Prod.fst))).map
          (fun row => unique_key row.2) := by
    rw [List.map_map]
    refine List.map_congr_left ?_
    intro row hrow
    have hm := List.mem_filter.mp hrow
    have hkD : unique_key row.2 ∈ D.map Prod.fst := by simpa using hm.2
    obtain ⟨fields, hfields⟩ := Option.isSome_iff_exists.mp (alGet_isSome.mpr hkD)
    exact (hrow_final row hm.1 fields hfields).2
  have hkeys2 : (remote2.map (fun row => unique_key row.2)).Nodup := by
    rw [hremote2_eq, List.map_append, hsurvkeys, hzipkeys]
    rw [List.nodup_append]
    refine ⟨?_, ?_, ?_⟩
    · exact hrkeys.sublist ((List.filter_sublist remote).map _)
    · exact hDnd.sublist ((List.filter_sublist D).map _)
    · intro k hk1 hk2
      obtain ⟨row, hrow, rfl⟩ := List.mem_map.mp hk1
      obtain ⟨q, hq, hkeq⟩ := List.mem_map.mp hk2
      have hqNone := (List.mem_filter.mp hq).2
      have : (alGet E q.1).isNone = true := by simpa using hqNone
      rw [Option.isNone_iff_eq_none, alGet_eq_none, hEkeys] at this
      refine this ?_
      rw [hkeq]
      exact List.mem_map_of_mem _ (List.mem_filter.mp hrow).1
  have hE2eq : buildExisting remote2
      = remote2.map (fun row => (unique_key row.2, row)) :=
    buildExisting_eq_map hkeys2
  have hE2knd : ((buildExisting remote2).map Prod.fst).Nodup := by
    rw [hE2eq, List.map_map]
    exact hkeys2
  -- every desired entry is present, with no differing field
  have hmain : ∀ p ∈ D, ∃ row2, row2 ∈ remote2 ∧ unique_key row2.2 = p.1 ∧
      ∀ q ∈ p.2, alGet row2.2 q.1 = some q.2 := by
    intro p hp
    have hpD : alGet D p.1 = some p.2 := alGet_eq_some_of_mem hDnd hp
    have hfieldsnd := hrows p.2 (hDent p hp).1
    cases hget : alGet E p.1 with
    | some row =>
        obtain ⟨hrow_mem, hrow_key⟩ := hEinv p.1 row hget
        have hDget : alGet D (unique_key row.2) = some p.2 := by
          rw [hrow_key]
          exact hpD
        obtain ⟨hmg, hkeypres⟩ := hrow_final row hrow_mem p.2 hDget
        refine ⟨(row.1, (ops.toUpdate.filter (fun u => u.id = row.1)).foldl
            (fun g u => applyPatch g u.fields) row.2), ?_, ?_, ?_⟩
        · rw [hremote2_eq]
          refine List.mem_append_left _ ?_
          refine List.mem_map_of_mem _ (List.mem_filter.mpr ⟨hrow_mem, ?_⟩)
          simp only [decide_eq_true_eq]
          rw [hrow_key]
          exact List.mem_map_of_mem Prod.fst hp
        · exact hkeypres.trans hrow_key
        · intro q hq
          have hval := hmg q.1
          rw [alGet_eq_some_of_mem hfieldsnd hq] at hval
          exact hval
    | none =>
        have hpfil : p ∈ D.filter (fun p => (alGet E p.1).isNone) :=
          List.mem_filter.mpr ⟨hp, by simp [hget]⟩
        have hpcreate : p.2 ∈ ops.toCreate := by
          rw [hcreates]
          exact List.mem_map_of_mem Prod.snd hpfil
        obtain ⟨nid, hzip⟩ := exists_fst_zip_of_mem hpcreate hlen
        refine ⟨(nid, p.2), ?_, (hDent p hp).2.1, ?_⟩
        · rw [hremote2_eq]
          exact List.mem_append_right _ hzip
        · intro q hq
          exact alGet_eq_some_of_mem hfieldsnd hq
  have hsub : ∀ row2 ∈ remote2, unique_key row2.2 ∈ D.map Prod.fst := by
    intro row2 hrow2
    rw [hremote2_eq] at hrow2
    rcases List.mem_append.mp hrow2 with h | h
    · obtain ⟨row, hrow, rfl⟩ := List.mem_map.mp h
      have hm := List.mem_filter.mp hrow
      have hkD : unique_key row.2 ∈ D.map Prod.fst := by simpa using hm.2
      obtain ⟨fields, hfields⟩ := Option.isSome_iff_exists.mp (alGet_isSome.mpr hkD)
      have hkeypres := (hrow_final row hm.1 fields hfields).2
      show unique_key ((ops.toUpdate.filter (fun u => u.id = row.1)).foldl
        (fun g u => applyPatch g u.fields) row.2) ∈ D.map Prod.fst
      rw [hkeypres]
      exact hkD
    · have hb : row2.2 ∈ ops.toCreate := (List.of_mem_zip h).2
      rw [hcreates] at hb
      obtain ⟨pq, hpq, hsnd⟩ := List.mem_map.mp hb
      have hkey := (hDent pq (List.mem_filter.mp hpq).1).2.1
      rw [← hsnd, hkey]
      exact List.mem_map_of_mem Prod.fst (List.mem_filter.mp hpq).1
  -- second run: no creates
  refine ⟨?_, ?_, ?_⟩
  · show (reconcileCore D (buildExisting remote2)).toCreate = []
    rw [reconcileCore_toCreate]
    have hfil : D.filter (fun p => (alGet (buildExisting remote2) p.1).isNone) = [] := by
      rw [List.filter_eq_nil_iff]
      intro p hp hdec
      obtain ⟨row2, hrow2, hkey2, _⟩ := hmain p hp
      have hmem : p.1 ∈ (buildExisting remote2).map Prod.fst := by
        rw [hE2eq, List.map_map, ← hkey2]
        exact List.mem_map_of_mem _ hrow2
      have := alGet_isSome.mpr hmem
      simp only [Option.isNone_iff_eq_none, Option.isSome_iff_ne_none] at hdec this
      exact this (by simpa using hdec)
    rw [hfil]
    rfl
  -- second run: no updates
  · show (reconcileCore D (buildExisting remote2)).toUpdate = []
    rw [reconcileCore_toUpdate, List.filterMap_eq_nil_iff]
    intro p hp
    cases hget : alGet (buildExisting remote2) p.1 with
    | none => simp [updateFor, hget]
    | some pr =>
        obtain ⟨id2, f2⟩ := pr
        have hm := mem_of_alGet_eq_some hget
        rw [hE2eq] at hm
        obtain ⟨row2, hrow2, heq⟩ := List.mem_map.mp hm
        injection heq with h1 h2
        obtain ⟨row2', hrow2', hkey2', hget2'⟩ := hmain p hp
        have hre : row2 = row2' :=
          List.inj_on_of_nodup_map hkeys2 hrow2 hrow2' (by rw [h1, hkey2'])
        subst hre
        subst h2
        have hdiff : diffFields f2 p.2 = [] := by
          refine diffFields_eq_nil.mpr ?_
          intro q hq
          exact hget2' q hq
        simp [updateFor, hget, hdiff]
  -- second run: no deletes
  · show ((buildExisting remote2).filter
        (fun p => decide (p.1 ∉ (reconcileCore D (buildExisting remote2)).keep))).map
        (fun p => p.2.1) = []
    have hfil : (buildExisting remote2).filter
        (fun p => decide (p.1 ∉ (reconcileCore D (buildExisting remote2)).keep)) = [] := by
      rw [List.filter_eq_nil_iff]
      intro q hq hdec
      have hq1 : q.1 ∈ (reconcileCore D (buildExisting remote2)).keep := by
        refine (mem_keep_iff D (buildExisting remote2) q.1).mpr ⟨?_,
          List.mem_map_of_mem Prod.fst hq⟩
        have hm := hq
        rw [hE2eq] at hm
        obtain ⟨row2, hrow2, heq⟩ := List.mem_map.mp hm
        rw [← congrArg Prod.fst heq]
        exact hsub row2 hrow2
      simp [hq1] at hdec
    rw [hfil]
    rfl

/-- Counterexample to **C5** as stated: two remote rows with the same derived
key (two rows with identical, identity-free fields hash to one key).  The
`existing` dict keeps only the later row `"b"`, so the first run deletes only
`"b"`; row `"a"` stays in the table, and the second run — far from emitting
nothing — deletes `"a"`. -/
theorem C5_idempotence_counterexample :
    (reconcile (buildDesired [] [[("Objektnummer", Value.str "1")]])
        (buildExisting
          (applyOps [("a", []), ("b", [])] ["c"]
            (reconcile (buildDesired [] [[("Objektnummer", Value.str "1")]])
              (buildExisting [("a", []), ("b", [])])).1.toCreate
            (reconcile (buildDesired [] [[("Objektnummer", Value.str "1")]])
              (buildExisting [("a", []), ("b", [])])).1.toUpdate
            (reconcile (buildDesired [] [[("Objektnummer", Value.str "1")]])
              (buildExisting [("a", []), ("b", [])])).2))).2 = ["a"] ∧
    (["a"] : List String) ≠ [] := by
  exact ⟨by decide, by decide⟩

/-- Witness for the amended C5: one desired record (`obj:1`), one remote row
(`obj:2`); the first run creates the new row under the fresh id `rc` and
deletes `ra`; the second run emits nothing. -/
theorem C5_reconcile_idempotent_witness :
    (reconcile (buildDesired [] [[("Objektnummer", Value.str "1"), ("Titel", Value.str "A")]])
        (buildExisting
          (applyOps [("ra", [("Objektnummer", Value.str "2")])] ["rc"]
            (reconcile (buildDesired []
                [[("Objektnummer", Value.str "1"), ("Titel", Value.str "A")]])
              (buildExisting [("ra", [("Objektnummer", Value.str "2")])])).1.toCreate
            (reconcile (buildDesired []
                [[("Objektnummer", Value.str "1"), ("Titel", Value.str "A")]])
              (buildExisting [("ra", [("Objektnummer", Value.str "2")])])).1.toUpdate
            (reconcile (buildDesired []
                [[("Objektnummer", Value.str "1"), ("Titel", Value.str "A")]])
              (buildExisting [("ra", [("Objektnummer", Value.str "2")])])).2))).1.toCreate
      = [] ∧
    (reconcile (buildDesired [] [[("Objektnummer", Value.str "1"), ("Titel", Value.str "A")]])
        (buildExisting
          (applyOps [("ra", [("Objektnummer", Value.str "2")])] ["rc"]
            (reconcile (buildDesired []
                [[("Objektnummer", Value.str "1"), ("Titel", Value.str "A")]])
              (buildExisting [("ra", [("Objektnummer", Value.str "2")])])).1.toCreate
            (reconcile (buildDesired []
                [[("Objektnummer", Value.str "1"), ("Titel", Value.str "A")]])
              (buildExisting [("ra", [("Objektnummer", Value.str "2")])])).1.toUpdate
            (reconcile (buildDesired []
                [[("Objektnummer", Value.str "1"), ("Titel", Value.str "A")]])
              (buildExisting [("ra", [("Objektnummer", Value.str "2")])])).2))).1.toUpdate
      = [] ∧
    (reconcile (buildDesired [] [[("Objektnummer", Value.str "1"), ("Titel", Value.str "A")]])
        (buildExisting
          (applyOps [("ra", [("Objektnummer", Value.str "2")])] ["rc"]
            (reconcile (buildDesired []
                [[("Objektnummer", Value.str "1"), ("Titel", Value.str "A")]])
              (buildExisting [("ra", [("Objektnummer", Value.str "2")])])).1.toCreate
            (reconcile (buildDesired []
                [[("Objektnummer", Value.str "1"), ("Titel", Value.str "A")]])
              (buildExisting [("ra", [("Objektnummer", Value.str "2")])])).1.toUpdate
            (reconcile (buildDesired []
                [[("Objektnummer", Value.str "1"), ("Titel", Value.str "A")]])
              (buildExisting [("ra", [("Objektnummer", Value.str "2")])])).2))).2
      = [] := by
  exact C5_reconcile_idempotent
    [[("Objektnummer", Value.str "1"), ("Titel", Value.str "A")]]
    [("ra", [("Objektnummer", Value.str "2")])]
    ["rc"]
    (buildDesired [] [[("Objektnummer", Value.str "1"), ("Titel", Value.str "A")]])
    (buildExisting [("ra", [("Objektnummer", Value.str "2")])])
    (reconcile (buildDesired [] [[("Objektnummer", Value.str "1"), ("Titel", Value.str "A")]])
      (buildExisting [("ra", [("Objektnummer", Value.str "2")])])).1
    (reconcile (buildDesired [] [[("Objektnummer", Value.str "1"), ("Titel", Value.str "A")]])
      (buildExisting [("ra", [("Objektnummer", Value.str "2")])])).2
    (applyOps [("ra", [("Objektnummer", Value.str "2")])] ["rc"]
      (reconcile (buildDesired [] [[("Objektnummer", Value.str "1"), ("Titel", Value.str "A")]])
        (buildExisting [("ra", [("Objektnummer", Value.str "2")])])).1.toCreate
      (reconcile (buildDesired [] [[("Objektnummer", Value.str "1"), ("Titel", Value.str "A")]])
        (buildExisting [("ra", [("Objektnummer", Value.str "2")])])).1.toUpdate
      (reconcile (buildDesired [] [[("Objektnummer", Value.str "1"), ("Titel", Value.str "A")]])
        (buildExisting [("ra", [("Objektnummer", Value.str "2")])])).2)
    rfl rfl rfl rfl
    (by decide) (by decide) (by decide) (by decide) (by decide) (by decide)

end HeyenScraper
